import Mathlib

/-!
The container `ft::vector`: a shallow embedding of `src/vector/vector.hpp`.

The container keeps three pointers `_begin`, `_end`, `_end_cap` into one block of raw
storage obtained from its allocator.  The embedding represents

* the block `_begin` points to as a list of slots, one per allocated element; a slot is
  `some x` when an object `x` has been constructed in it and `none` when it holds no object;
* `_end` and `_end_cap` by their distance from `_begin`;
* an iterator by its distance from `_begin` of the vector it belongs to;
* `size_type` values by natural numbers.  The sum `curr_size + n` that the two multi-element
  `insert` overloads compare with the capacity is taken modulo `2 ^ 64`, as the source
  computes it; when the sum wraps, the block is too small for the elements and the loops
  write outside it.  The doublings of a capacity are taken in `Nat`: an object of `2 ^ 63`
  bytes cannot be allocated, so that the double of a capacity fits in `size_type`;
* the allocator by the set of request sizes it can satisfy; a request it cannot satisfy
  throws `std::bad_alloc`;
* an operation that may throw by a function returning the outcome (normal return value or
  exception) together with the state of the vector after the call;
* an argument of type `const value_type&` of a member function by a `value_ref`: a
  reference to an object outside the storage of the vector, or a reference to one of the
  slots of the vector.  The object is read through the reference where the source reads it,
  that is after the growth step and after the elements have been shifted;
* an input range `[first, last)` by the list of its values;
* the test `this == &x` of `operator=` and `swap` by the form of the argument: the object
  itself or another vector;
* a vector by its data members together with the contents of its block.  Where it matters
  which block a vector owns (copy construction), vectors are `vector_object`s in a `memory`
  that holds the block at each address.

`ft::equal` and `ft::lexicographical_compare` live in `utils/`, which is not among the
sources; they are modelled from the specification.

Reading a slot that holds no object is undefined behaviour in the source; the embedding
reads `none`, also through a reference to an element that has been destroyed or whose block
has been released.  Writing outside the allocated block is undefined behaviour as well: the
two multi-element `insert` overloads, which reach it when their sum wraps, have the outcome
`undefined`; elsewhere the embedding leaves the block untouched.
-/

namespace ft

deriving instance DecidableEq for Except

/-- The ways a call ends other than by a normal return: the exceptions thrown by the
container (`std::length_error`, `std::out_of_range`) or by its allocator (`std::bad_alloc`),
and `undefined`, which is no exception: it marks a call that writes outside the allocated
block, whose behaviour is undefined. -/
inductive exception where
  | length_error
  | out_of_range
  | bad_alloc
  | undefined
deriving DecidableEq, Repr

/-- The allocation strategy `Alloc`: `allocate n` is `true` when a request for a block of
`n` slots is satisfied and `false` when it throws `std::bad_alloc`. -/
structure allocator where
  allocate : Nat → Bool

/-- The data members of `ft::vector<T, Alloc>`. -/
structure vector (T : Type) where
  _alloc : allocator
  _begin : List (Option T)
  _end : Nat
  _end_cap : Nat

/-- The value `std::numeric_limits<size_type>::max()` for a 64-bit `size_type`. -/
def size_type_max : Nat := 2 ^ 64 - 1

/-- The number of values of `size_type`: sums of `size_type` values are taken modulo it. -/
def size_type_modulus : Nat := size_type_max + 1

/-- An argument of type `const value_type&` handed to a member function of a vector: a
reference to an object `x` outside the storage of the vector, or a reference to the slot at
index `i` of the block of the vector (as in `v.push_back(v[i])`). -/
inductive value_ref (T : Type) where
  | outside (x : T) : value_ref T
  | element (i : Nat) : value_ref T

section storage
variable {T : Type}

/-- The expression `*(p + i)`: the object in slot `i` of block `p`. -/
def deref (p : List (Option T)) (i : Nat) : Option T := p.getD i none

/-- The call `_alloc.construct(p + i, val)`. -/
def construct (p : List (Option T)) (i : Nat) (val : Option T) : List (Option T) := p.set i val

/-- The call `_alloc.destroy(p + i)`. -/
def destroy (p : List (Option T)) (i : Nat) : List (Option T) := p.set i none

/-- The object read through a reference during a member call.  `p` is the block of the
vector as it is when the reference is read, and `moved` tells whether the growth step of the
call has moved the elements to a new block: the block the reference then points into has
had its elements destroyed and has been released, and holds no object. -/
def value_ref.read (val : value_ref T) (moved : Bool) (p : List (Option T)) : Option T :=
  match val with
  | .outside x => some x
  | .element i => if moved then none else deref p i

end storage

section loops
variable {σ : Type}

/-- The loop `for (i = i0; ...; i++) body` run for `k` iterations. -/
def for_up_aux (body : Nat → σ → σ) : Nat → Nat → σ → σ
  | 0, _, s => s
  | k + 1, i, s => for_up_aux body k (i + 1) (body i s)

/-- The loop `for (size_type i = lo; i < hi; i++) body`. -/
def for_up (lo hi : Nat) (body : Nat → σ → σ) (s : σ) : σ :=
  for_up_aux body (hi - lo) lo s

/-- The loop `for (size_type i = hi; i > lo; i--) body`, by recursion on `i`. -/
def for_down (lo : Nat) (body : Nat → σ → σ) : Nat → σ → σ
  | 0, s => s
  | i + 1, s => if i + 1 > lo then for_down lo body i (body (i + 1) s) else s

end loops

section members
variable {T : Type}

/-- Default constructor `vector(alloc)`: `_begin(0), _end(_begin), _end_cap(_begin)`. -/
def vector.vector_default (alloc : allocator) : vector T :=
  { _alloc := alloc, _begin := [], _end := 0, _end_cap := 0 }

/-- Member `begin()`, an iterator, as its distance from `_begin`. -/
def vector.begin (_v : vector T) : Nat := 0

/-- Member `end()`, an iterator, as its distance from `_begin`. -/
def vector.end (v : vector T) : Nat := v._end

/-- Member `size()`: `_end - _begin`. -/
def vector.size (v : vector T) : Nat := v._end

/-- Member `max_size()`, for an element type of `sizeof_value_type` bytes. -/
def vector.max_size (_v : vector T) (sizeof_value_type : Nat) : Nat :=
  size_type_max / (if sizeof_value_type = 1 then sizeof_value_type + 1 else sizeof_value_type)

/-- Member `capacity()`: `_end_cap - _begin`. -/
def vector.capacity (v : vector T) : Nat := v._end_cap

/-- Member `empty()`. -/
def vector.empty (v : vector T) : Bool := v.size = 0

/-- The loop of `clear()`: `while (_begin != _end) { --_end; destroy(_end); }`, by
recursion on the distance of `_end` from `_begin`. -/
def vector.clear_loop : Nat → List (Option T) → List (Option T)
  | 0, p => p
  | e + 1, p => clear_loop e (destroy p e)

/-- Member `clear()`. -/
def vector.clear (v : vector T) : vector T :=
  { v with _begin := clear_loop v._end v._begin, _end := 0 }

/-- Private member `do_allocate(n)`. -/
def vector.do_allocate (v : vector T) (n : Nat) : Except exception Unit × vector T :=
  if n > v.capacity then
    if v._alloc.allocate n then
      let new_begin : List (Option T) := List.replicate n none
      let curr_size := v.size
      let new_begin := for_up 0 curr_size
        (fun i p => construct p i (deref v._begin i)) new_begin
      let v1 := v.clear
      (.ok (), { v1 with _begin := new_begin, _end := curr_size, _end_cap := n })
    else (.error .bad_alloc, v)
  else (.ok (), v)

/-- Member `reserve(n)`. -/
def vector.reserve (v : vector T) (sizeof_value_type : Nat) (n : Nat) :
    Except exception Unit × vector T :=
  if n > v.max_size sizeof_value_type then (.error .length_error, v)
  else v.do_allocate n

/-- Member `operator[](n)`. -/
def vector.operator_index (v : vector T) (n : Nat) : Option T := deref v._begin n

/-- Member `at(n)`. -/
def vector.at (v : vector T) (n : Nat) : Except exception (Option T) :=
  if n ≥ v.size then .error .out_of_range else .ok (deref v._begin n)

/-- Member `front()`. -/
def vector.front (v : vector T) : Option T := deref v._begin 0

/-- Member `push_back(val)`.  `val` is read after the growth step, which moves the elements
when it runs and returns. -/
def vector.push_back (v : vector T) (val : value_ref T) : Except exception Unit × vector T :=
  let curr_size := v.size
  let moved : Bool := curr_size = v.capacity
  let r := if curr_size = v.capacity then
      v.do_allocate (if curr_size = 0 then 1 else curr_size * 2)
    else (.ok (), v)
  match r with
  | (.error e, v1) => (.error e, v1)
  | (.ok (), v1) =>
    (.ok (), { v1 with _begin := construct v1._begin v1._end (val.read moved v1._begin),
                       _end := v1._end + 1 })

/-- Member `pop_back()`. -/
def vector.pop_back (v : vector T) : vector T :=
  if v._end ≠ 0 then
    { v with _begin := destroy v._begin (v._end - 1), _end := v._end - 1 }
  else v

/-- Member `insert(position, val)`.  `val` is read after the growth step and after the
loop that shifts the elements. -/
def vector.insert (v : vector T) (position : Nat) (val : value_ref T) :
    Except exception Nat × vector T :=
  let dist := position - v.begin
  let curr_size := v.size
  let curr_cap := v.capacity
  let moved : Bool := curr_size = curr_cap
  let r := if curr_size = curr_cap then
      v.do_allocate (if curr_cap = 0 then 1 else curr_cap * 2)
    else (.ok (), v)
  match r with
  | (.error e, v1) => (.error e, v1)
  | (.ok (), v1) =>
    let p := for_down dist
      (fun i p => destroy (construct p i (deref p (i - 1))) (i - 1)) curr_size v1._begin
    let p := construct p dist (val.read moved p)
    let v2 := { v1 with _begin := p, _end := v1._end + 1 }
    (.ok (v2.begin + dist), v2)

/-- Member `insert(position, n, val)`.  The sum `curr_size + n` is a `size_type` value.
The two loops write the slots up to index `curr_size + n - 1`: when the block has fewer
slots after the growth step, which takes a sum that has wrapped, they write outside the
block and the outcome is `undefined`.  `val` is read at every step of the second loop. -/
def vector.insert_fill (v : vector T) (position : Nat) (n : Nat) (val : value_ref T) :
    Except exception Unit × vector T :=
  if n = 0 then (.ok (), v)
  else
    let dist := position - v.begin
    let curr_cap := v.capacity
    let curr_size := v.size
    let sum := (curr_size + n) % size_type_modulus
    let moved : Bool := sum > curr_cap
    let r := if sum > curr_cap then
        v.do_allocate (if curr_cap * 2 ≥ sum then curr_cap * 2 else sum)
      else (.ok (), v)
    match r with
    | (.error e, v1) => (.error e, v1)
    | (.ok (), v1) =>
      if curr_size + n > v1.capacity then (.error .undefined, v1)
      else
        let p := for_down dist
          (fun i p => destroy (construct p (i + n - 1) (deref p (i - 1))) (i - 1))
          curr_size v1._begin
        let p := for_up 0 n (fun i p => construct p (dist + i) (val.read moved p)) p
        (.ok (), { v1 with _begin := p, _end := v1._end + n })

/-- Member `insert(position, first, last)`; the range `[first, last)` is given by the
list of the values `*(first + i)`.  The sum `curr_size + it_size` is a `size_type` value.
The two loops write the slots up to index `curr_size + it_size - 1`: when the block has
fewer slots after the growth step, which takes a sum that has wrapped, they write outside
the block and the outcome is `undefined`. -/
def vector.insert_range (v : vector T) (position : Nat) (range : List T) :
    Except exception Unit × vector T :=
  if range.length = 0 then (.ok (), v)
  else
    let dist := position - v.begin
    let it_size := range.length
    let curr_cap := v.capacity
    let curr_size := v.size
    let sum := (curr_size + it_size) % size_type_modulus
    let r := if sum > curr_cap then
        v.do_allocate (if curr_cap * 2 ≥ sum then curr_cap * 2 else sum)
      else (.ok (), v)
    match r with
    | (.error e, v1) => (.error e, v1)
    | (.ok (), v1) =>
      if curr_size + it_size > v1.capacity then (.error .undefined, v1)
      else
        let p := for_down dist
          (fun i p => destroy (construct p (i + it_size - 1) (deref p (i - 1))) (i - 1))
          curr_size v1._begin
        let p := for_up 0 it_size (fun i p => construct p (dist + i) range[i]?) p
        (.ok (), { v1 with _begin := p, _end := v1._end + it_size })

/-- Member `erase(position)`. -/
def vector.erase (v : vector T) (position : Nat) : Nat × vector T :=
  if position = v.end then (position, v)
  else
    let dist := position - v.begin
    let p := destroy v._begin dist
    let p := for_up dist (v.size - 1)
      (fun i p => destroy (construct p i (deref p (i + 1))) (i + 1)) p
    let v1 := { v with _begin := p, _end := v._end - 1 }
    (v1.begin + dist, v1)

/-- Member `erase(first, last)`. -/
def vector.erase_range (v : vector T) (first last : Nat) : Nat × vector T :=
  if first = v.end ∨ first = last then (first, v)
  else
    let it_size := last - first
    let dist := first - v.begin
    let p := for_up 0 it_size (fun i p => destroy p (dist + i)) v._begin
    let p := for_up dist (v.size - it_size)
      (fun i p => destroy (construct p i (deref p (i + it_size))) (i + it_size)) p
    let v1 := { v with _begin := p, _end := v._end - it_size }
    (v1.begin + dist, v1)

/-- The slots between `begin()` and `end()`. -/
def vector.slots (v : vector T) : List (Option T) := v._begin.take v._end

/-- The element sequence of the vector: the objects held between `begin()` and `end()`. -/
def vector.to_list (v : vector T) : List T := v.slots.reduceOption

/-- The representation invariant: the block has `capacity()` slots, `size() ≤ capacity()`,
and every slot below `size()` holds an object. -/
def vector.valid (v : vector T) : Prop :=
  v._begin.length = v._end_cap ∧ v._end ≤ v._end_cap ∧ v.slots.all Option.isSome = true

instance (v : vector T) : Decidable v.valid := by
  unfold vector.valid; infer_instance

/-- A sequence of `push_back` calls, each with an object outside the storage of the
vector, stopping at the first one that throws. -/
def vector.push_back_all (v : vector T) : List T → Except exception Unit × vector T
  | [] => (.ok (), v)
  | x :: xs =>
    match v.push_back (.outside x) with
    | (.error e, v1) => (.error e, v1)
    | (.ok (), v1) => vector.push_back_all v1 xs

end members

/-- An allocator that satisfies every request. -/
def allocator.unlimited : allocator := { allocate := fun _ => true }

/-- An allocator that satisfies no request. -/
def allocator.exhausted : allocator := { allocate := fun _ => false }

/-- The vector reached from an empty one by `push_back(10)`, `push_back(20)`,
`push_back(30)`: three elements in a block of four slots. -/
def sample : vector Nat :=
  { _alloc := allocator.unlimited, _begin := [some 10, some 20, some 30, none],
    _end := 3, _end_cap := 4 }

/-- A full vector whose allocator refuses every request. -/
def sample_full : vector Nat :=
  { _alloc := allocator.exhausted, _begin := [some 1, some 2], _end := 2, _end_cap := 2 }

section more_members
variable {T : Type}

/-- The loop `for (...) { _alloc.construct(_end, val i); _end++; }` of the constructors and
of `operator=`, as the body applied at index `i`; `val i` is the value read at step `i`. -/
def vector.construct_at_end (val : Nat → Option T) (i : Nat) (v : vector T) : vector T :=
  { v with _begin := construct v._begin v._end (val i), _end := v._end + 1 }

/-- Constructor `vector(n, val, alloc)`. -/
def vector.vector_fill (n : Nat) (val : T) (alloc : allocator) : Except exception (vector T) :=
  if alloc.allocate n then
    .ok (for_up 0 n (vector.construct_at_end (fun _ => some val))
      { _alloc := alloc, _begin := List.replicate n none, _end := 0, _end_cap := n })
  else .error .bad_alloc

/-- Constructor `vector(first, last, alloc)`; the range `[first, last)` is given by the list
of the values `*it`, the iterator `it` at step `i` being `first + i`. -/
def vector.vector_range (range : List T) (alloc : allocator) : Except exception (vector T) :=
  let dist := range.length
  if alloc.allocate dist then
    .ok (for_up 0 dist (vector.construct_at_end (fun i => range[i]?))
      { _alloc := alloc, _begin := List.replicate dist none, _end := 0, _end_cap := dist })
  else .error .bad_alloc

/-- Copy constructor `vector(x)`. -/
def vector.vector_copy (x : vector T) : Except exception (vector T) :=
  if x._alloc.allocate x.capacity then
    .ok (for_up 0 x.size (vector.construct_at_end (fun i => deref x._begin (x.begin + i)))
      { _alloc := x._alloc, _begin := List.replicate x.capacity none, _end := 0,
        _end_cap := x.capacity })
  else .error .bad_alloc

/-- The right-hand side of `a = x`: the object `a` itself (`this == &x`) or another
vector. -/
inductive assigned (T : Type) where
  | self : assigned T
  | other (x : vector T) : assigned T

/-- Member `operator=(x)`.  When `allocate` throws, the vector is left cleared, with the
allocator of `x` and the block it has just released. -/
def vector.operator_assign (v : vector T) : assigned T → Except exception Unit × vector T
  | .self => (.ok (), v)
  | .other x =>
    let v1 := v.clear
    let v2 := { v1 with _alloc := x._alloc }
    if v2._alloc.allocate x.size then
      let v3 := { v2 with _begin := List.replicate x.size none, _end_cap := x.size, _end := 0 }
      (.ok (), for_up 0 x.size
        (vector.construct_at_end (fun i => deref x._begin (x.begin + i))) v3)
    else (.error .bad_alloc, v2)

/-- Member `resize(n, val)`. -/
def vector.resize (v : vector T) (n : Nat) (val : T) : Except exception Unit × vector T :=
  let curr_size := v.size
  if n < curr_size then
    let v1 := for_up n curr_size (fun _ w => w.pop_back) v
    (.ok (), { v1 with _end := n })
  else if n > curr_size then
    let r := if n > v.capacity then
        v.do_allocate (if v.capacity * 2 > n then v.capacity * 2 else n)
      else (.ok (), v)
    match r with
    | (.error e, v1) => (.error e, v1)
    | (.ok (), v1) =>
      let p := for_up curr_size n (fun i p => construct p i (some val)) v1._begin
      (.ok (), { v1 with _begin := p, _end := n })
  else (.ok (), { v with _end := n })

/-- Member `assign(first, last)`; the range `[first, last)` is given by the list of the
values `*(first + i)`. -/
def vector.assign_range (v : vector T) (range : List T) : Except exception Unit × vector T :=
  let it_size := range.length
  let r := if it_size > v.capacity then v.do_allocate it_size else (.ok (), v)
  match r with
  | (.error e, v1) => (.error e, v1)
  | (.ok (), v1) =>
    let v2 := v1.clear
    let p := for_up 0 it_size (fun i p => construct p i range[i]?) v2._begin
    (.ok (), { v2 with _begin := p, _end := it_size })

/-- Member `assign(n, val)`.  `val` is read at every step of the loop, after the growth
step and after `clear()`. -/
def vector.assign_fill (v : vector T) (n : Nat) (val : value_ref T) :
    Except exception Unit × vector T :=
  let moved : Bool := n > v.capacity
  let r := if n > v.capacity then v.do_allocate n else (.ok (), v)
  match r with
  | (.error e, v1) => (.error e, v1)
  | (.ok (), v1) =>
    let v2 := v1.clear
    let p := for_up 0 n (fun i p => construct p i (val.read moved p)) v2._begin
    (.ok (), { v2 with _begin := p, _end := n })

/-- The assignment `v[n] = val` through the reference that `operator[](n)` returns: the
slot `*(_begin + n)` is given the value `val`. -/
def vector.operator_index_assign (v : vector T) (n : Nat) (val : T) : vector T :=
  { v with _begin := v._begin.set n (some val) }

/-- Member `swap(x)` on two distinct vectors: the pair `(*this, x)` after the call.  With
`this == &x` the call returns at once. -/
def vector.swap (v x : vector T) : vector T × vector T :=
  ({ _alloc := x._alloc, _begin := x._begin, _end := x._end, _end_cap := x._end_cap },
   { _alloc := v._alloc, _begin := v._begin, _end := v._end, _end_cap := v._end_cap })

/-- Modelled from the spec: `ft::equal(first1, last1, first2)` of `utils/equal.hpp`, a
file that is not among the sources.  The spec has it compare the corresponding elements
pairwise in order; the first range is given by the list of its elements and the second by
the elements from `first2` on. -/
def equal [BEq T] : List T → List T → Bool
  | [], _ => true
  | _ :: _, [] => false
  | a :: l1, b :: l2 => if a == b then equal l1 l2 else false

/-- Modelled from the spec: `ft::lexicographical_compare(first1, last1, first2, last2)` of
`utils/lexicographical_compare.hpp`, a file that is not among the sources.  The spec has the
first position where the elements differ decide, and a strict prefix be less; both ranges
are given by the lists of their elements. -/
def lexicographical_compare [LT T] [DecidableRel (fun (a b : T) => a < b)] :
    List T → List T → Bool
  | [], [] => false
  | [], _ :: _ => true
  | _ :: _, [] => false
  | a :: l1, b :: l2 =>
    if a < b then true else if b < a then false else lexicographical_compare l1 l2

/-- The range `[begin(), end())` of a vector handed to an algorithm: its elements. -/
def vector.range (v : vector T) : List T := v.to_list

/-- Free function `operator==`. -/
def operator_eq [BEq T] (lhs rhs : vector T) : Bool :=
  if lhs.size ≠ rhs.size then false
  else equal lhs.range rhs.range

/-- Free function `operator!=`. -/
def operator_ne [BEq T] (lhs rhs : vector T) : Bool := !(operator_eq lhs rhs)

/-- Free function `operator<`. -/
def operator_lt [LT T] [DecidableRel (fun (a b : T) => a < b)] (lhs rhs : vector T) : Bool :=
  lexicographical_compare lhs.range rhs.range

/-- Free function `operator<=`. -/
def operator_le [LT T] [DecidableRel (fun (a b : T) => a < b)] (lhs rhs : vector T) : Bool :=
  !(operator_lt rhs lhs)

/-- Free function `operator>`. -/
def operator_gt [LT T] [DecidableRel (fun (a b : T) => a < b)] (lhs rhs : vector T) : Bool :=
  operator_lt rhs lhs

/-- Free function `operator>=`. -/
def operator_ge [LT T] [DecidableRel (fun (a b : T) => a < b)] (lhs rhs : vector T) : Bool :=
  !(operator_lt lhs rhs)

/-- The class invariant `0 ≤ size() ≤ capacity()`. -/
def vector.invariant (v : vector T) : Prop := 0 ≤ v.size ∧ v.size ≤ v.capacity

instance (v : vector T) : Decidable v.invariant := by
  unfold vector.invariant; infer_instance

/-- The capacity reached by `push_back` calls alone: either nothing has been pushed and
nothing is allocated, or the capacity is a power of two with
`size() ≤ capacity() < 2 * size()`. -/
def vector.doubling (v : vector T) : Prop :=
  (v._end = 0 ∧ v._end_cap = 0) ∨
    (∃ k, v._end_cap = 2 ^ k ∧ v._end ≤ v._end_cap ∧ v._end_cap < 2 * v._end)

end more_members

section objects
variable {T : Type}

/-- The free store that the vectors of a program share: the block found at each address, and
`brk`, the first address that no call of `allocate` has returned yet. -/
structure memory (T : Type) where
  block : Nat → List (Option T)
  brk : Nat

/-- A vector as an object of a program: the data members, `_begin` being the address of its
block in the memory. -/
structure vector_object where
  _alloc : allocator
  _begin : Nat
  _end : Nat
  _end_cap : Nat

/-- The vector that an object is in a memory: its data members and the contents of the
block `_begin` points to. -/
def vector_object.load (o : vector_object) (m : memory T) : vector T :=
  { _alloc := o._alloc, _begin := m.block o._begin, _end := o._end, _end_cap := o._end_cap }

/-- The effect on the memory of a call of `push_back`, `erase` or an element assignment on
the object `o`, the call leaving the vector `w`.  Such a call replaces `_begin` only in
`do_allocate`, which then changes the capacity: a call that returns with another capacity has
its elements in a new block, obtained from `allocate`, and has released the old block; any
other call has written in the block of `o`. -/
def vector_object.store (o : vector_object) (m : memory T) (w : vector T) :
    memory T × vector_object :=
  if w._end_cap = o._end_cap then
    ({ m with block := Function.update m.block o._begin w._begin },
     { o with _alloc := w._alloc, _end := w._end })
  else
    ({ block := Function.update (Function.update m.block o._begin []) m.brk w._begin,
       brk := m.brk + 1 },
     { _alloc := w._alloc, _begin := m.brk, _end := w._end, _end_cap := w._end_cap })

/-- Copy constructor `vector(x)` in a memory: `_begin = _alloc.allocate(x.capacity())` is
the address of a new block, in which the loop constructs the copies of the elements of
`x`. -/
def vector_object.vector_copy (x : vector_object) (m : memory T) :
    Except exception (memory T × vector_object) :=
  match (x.load m).vector_copy with
  | .error e => .error e
  | .ok c =>
    .ok ({ block := Function.update m.block m.brk c._begin, brk := m.brk + 1 },
         { _alloc := c._alloc, _begin := m.brk, _end := c._end, _end_cap := c._end_cap })

/-- Member `push_back(val)` called on an object of a memory. -/
def vector_object.push_back (o : vector_object) (m : memory T) (val : value_ref T) :
    Except exception Unit × memory T × vector_object :=
  let r := (o.load m).push_back val
  (r.1, o.store m r.2)

/-- Member `erase(position)` called on an object of a memory. -/
def vector_object.erase (o : vector_object) (m : memory T) (position : Nat) :
    Nat × memory T × vector_object :=
  let r := (o.load m).erase position
  (r.1, o.store m r.2)

/-- The assignment `o[n] = val` on an object of a memory. -/
def vector_object.operator_index_assign (o : vector_object) (m : memory T) (n : Nat)
    (val : T) : memory T × vector_object :=
  o.store m ((o.load m).operator_index_assign n val)

end objects

/-- A memory with one block, the block of `sample_object`, at address 0. -/
def sample_memory : memory Nat :=
  { block := fun a => if a = 0 then [some 10, some 20, some 30, none] else [], brk := 1 }

/-- The vector `sample` as an object of `sample_memory`. -/
def sample_object : vector_object :=
  { _alloc := allocator.unlimited, _begin := 0, _end := 3, _end_cap := 4 }

section storage_lemmas
variable {T : Type}

theorem deref_eq_getElem? (p : List (Option T)) (j : Nat) : deref p j = (p[j]?).getD none := by
  simp [deref]

theorem deref_of_length_le {p : List (Option T)} {j : Nat} (h : p.length ≤ j) :
    deref p j = none := by
  simp [deref, List.getElem?_eq_none h]

theorem getElem?_eq_some_deref {p : List (Option T)} {j : Nat} (h : j < p.length) :
    p[j]? = some (deref p j) := by
  simp [deref, List.getElem?_eq_getElem h]

theorem ext_deref {p q : List (Option T)} (hl : p.length = q.length)
    (h : ∀ j, j < p.length → deref p j = deref q j) : p = q := by
  apply List.ext_getElem? 
  intro j
  by_cases hj : j < p.length
  · rw [getElem?_eq_some_deref hj, getElem?_eq_some_deref (hl ▸ hj), h j hj]
  · rw [List.getElem?_eq_none (by omega), List.getElem?_eq_none (by omega)]

theorem deref_set (p : List (Option T)) (i j : Nat) (a : Option T) :
    deref (p.set i a) j = if j = i ∧ i < p.length then a else deref p j := by
  simp only [deref_eq_getElem?, List.getElem?_set]
  by_cases h1 : i = j
  · subst h1
    by_cases h2 : i < p.length
    · simp [h2]
    · simp [h2, List.getElem?_eq_none (Nat.le_of_not_lt h2)]
  · have : ¬ (j = i) := fun h => h1 h.symm
    simp [h1, this]

theorem deref_construct (p : List (Option T)) (i j : Nat) (a : Option T) :
    deref (construct p i a) j = if j = i ∧ i < p.length then a else deref p j :=
  deref_set p i j a

theorem deref_destroy (p : List (Option T)) (i j : Nat) :
    deref (destroy p i) j = if j = i ∧ i < p.length then none else deref p j :=
  deref_set p i j none

@[simp] theorem length_construct (p : List (Option T)) (i : Nat) (a : Option T) :
    (construct p i a).length = p.length := by simp [construct]

@[simp] theorem length_destroy (p : List (Option T)) (i : Nat) :
    (destroy p i).length = p.length := by simp [destroy]

theorem deref_take (p : List (Option T)) (e j : Nat) :
    deref (p.take e) j = if j < e then deref p j else none := by
  simp only [deref_eq_getElem?, List.getElem?_take]
  split_ifs <;> simp

theorem deref_drop (p : List (Option T)) (d j : Nat) :
    deref (p.drop d) j = deref p (d + j) := by
  simp [deref_eq_getElem?, List.getElem?_drop]

theorem deref_append (p q : List (Option T)) (j : Nat) :
    deref (p ++ q) j = if j < p.length then deref p j else deref q (j - p.length) := by
  simp only [deref_eq_getElem?, List.getElem?_append]
  split_ifs <;> simp

theorem deref_replicate (n j : Nat) (a : Option T) :
    deref (List.replicate n a) j = if j < n then a else none := by
  simp only [deref_eq_getElem?, List.getElem?_replicate]
  split_ifs <;> simp

theorem deref_cons_zero (a : Option T) (p : List (Option T)) : deref (a :: p) 0 = a := by
  simp [deref]

theorem deref_cons_succ (a : Option T) (p : List (Option T)) (j : Nat) :
    deref (a :: p) (j + 1) = deref p j := by
  simp [deref]

end storage_lemmas

section loop_lemmas
variable {T : Type}

theorem for_up_aux_fill_length (off : Nat) (f : Nat → Option T) (k : Nat) :
    ∀ (i0 : Nat) (p : List (Option T)),
      (for_up_aux (fun i q => construct q (off + i) (f i)) k i0 p).length = p.length := by
  induction k with
  | zero => intro i0 p; rfl
  | succ k ih => intro i0 p; simp [for_up_aux, ih]

theorem for_up_aux_fill_deref (off : Nat) (f : Nat → Option T) (k : Nat) :
    ∀ (i0 : Nat) (p : List (Option T)) (j : Nat),
      deref (for_up_aux (fun i q => construct q (off + i) (f i)) k i0 p) j =
        if off + i0 ≤ j ∧ j < off + i0 + k ∧ j < p.length then f (j - off) else deref p j := by
  induction k with
  | zero =>
    intro i0 p j
    simp only [for_up_aux]
    split_ifs <;> first | rfl | (exfalso; omega)
  | succ k ih =>
    intro i0 p j
    simp only [for_up_aux, ih, length_construct, deref_construct]
    split_ifs <;> first | rfl | (exfalso; omega) | (congr 1; omega)

theorem for_up_aux_copy_length (f : Nat → Option T) (k i0 : Nat) (p : List (Option T)) :
    (for_up_aux (fun i q => construct q i (f i)) k i0 p).length = p.length := by
  have h := for_up_aux_fill_length 0 f k i0 p
  simpa only [Nat.zero_add] using h

theorem for_up_aux_copy_deref (f : Nat → Option T) (k i0 : Nat) (p : List (Option T)) (j : Nat) :
    deref (for_up_aux (fun i q => construct q i (f i)) k i0 p) j =
      if i0 ≤ j ∧ j < i0 + k ∧ j < p.length then f j else deref p j := by
  have h := for_up_aux_fill_deref 0 f k i0 p j
  simpa only [Nat.zero_add, Nat.sub_zero] using h

theorem for_down_shift_length (d n : Nat) (e : Nat) :
    ∀ (p : List (Option T)),
      (for_down d (fun i q => destroy (construct q (i + n - 1) (deref q (i - 1))) (i - 1)) e p).length
        = p.length := by
  induction e with
  | zero => intro p; rfl
  | succ e ih =>
    intro p
    simp only [for_down]
    split_ifs
    · simp [ih]
    · rfl

theorem for_down_shift_deref (d n : Nat) (hn : 1 ≤ n) (e : Nat) :
    ∀ (p : List (Option T)) (j : Nat), e + n ≤ p.length →
      deref (for_down d (fun i q => destroy (construct q (i + n - 1) (deref q (i - 1))) (i - 1)) e p) j =
        if d + n ≤ j ∧ j < e + n then deref p (j - n)
        else if d ≤ j ∧ j < e then none else deref p j := by
  induction e with
  | zero =>
    intro p j _
    simp only [for_down]
    split_ifs <;> first | rfl | (exfalso; omega)
  | succ e ih =>
    intro p j hlen
    simp only [for_down]
    by_cases hd : e + 1 > d
    · rw [if_pos hd, ih _ _ (by simp; omega)]
      simp only [deref_destroy, deref_construct, length_construct, Nat.add_sub_cancel]
      split_ifs <;> first | rfl | (exfalso; omega) | (congr 1; omega)
    · rw [if_neg hd]
      split_ifs <;> first | rfl | (exfalso; omega)

theorem for_up_aux_shift_length (k : Nat) (m : Nat) :
    ∀ (i0 : Nat) (p : List (Option T)),
      (for_up_aux (fun i q => destroy (construct q i (deref q (i + k))) (i + k)) m i0 p).length
        = p.length := by
  induction m with
  | zero => intro i0 p; rfl
  | succ m ih => intro i0 p; simp [for_up_aux, ih]

theorem for_up_aux_shift_deref (k : Nat) (hk : 1 ≤ k) (m : Nat) :
    ∀ (i0 : Nat) (p : List (Option T)) (j : Nat), i0 + m + k ≤ p.length →
      deref (for_up_aux (fun i q => destroy (construct q i (deref q (i + k))) (i + k)) m i0 p) j =
        if i0 ≤ j ∧ j < i0 + m then deref p (j + k)
        else if i0 + k ≤ j ∧ j < i0 + m + k then none else deref p j := by
  induction m with
  | zero =>
    intro i0 p j _
    simp only [for_up_aux]
    split_ifs <;> first | rfl | (exfalso; omega)
  | succ m ih =>
    intro i0 p j hlen
    simp only [for_up_aux]
    rw [ih _ _ _ (by simp; omega)]
    simp only [deref_destroy, deref_construct, length_construct]
    split_ifs <;> first | rfl | (exfalso; omega) | (congr 1; omega)

end loop_lemmas

section vector_lemmas
variable {T : Type}

theorem reduceOption_map_some (l : List T) : (l.map some).reduceOption = l := by
  induction l with
  | nil => rfl
  | cons a l ih => simp [List.reduceOption_cons_of_some, ih]

theorem map_some_reduceOption (s : List (Option T)) (h : s.all Option.isSome = true) :
    s.reduceOption.map some = s := by
  induction s with
  | nil => rfl
  | cons a s ih =>
    cases a with
    | none => simp at h
    | some a =>
      simp only [List.all_cons, Bool.and_eq_true] at h
      simp [List.reduceOption_cons_of_some, ih h.2]

theorem all_isSome_map_some (l : List T) : (l.map some).all Option.isSome = true := by
  induction l with
  | nil => rfl
  | cons a l ih => simp [ih]

theorem vector.slots_eq_map (v : vector T) (hv : v.valid) : v.slots = v.to_list.map some :=
  (map_some_reduceOption v.slots hv.2.2).symm

theorem vector.to_list_of_slots {v : vector T} {l : List T} (h : v.slots = l.map some) :
    v.to_list = l := by
  simp [vector.to_list, h, reduceOption_map_some]

theorem vector.length_slots (v : vector T) (hv : v.valid) : v.slots.length = v._end := by
  have h1 := hv.1
  have h2 := hv.2.1
  simp [vector.slots, List.length_take]
  omega

theorem vector.length_to_list (v : vector T) (hv : v.valid) : v.to_list.length = v.size := by
  have h := v.length_slots hv
  rw [v.slots_eq_map hv] at h
  simp [vector.size] at h
  exact h

theorem vector.deref_slots (v : vector T) (j : Nat) (hj : j < v._end) :
    deref v.slots j = deref v._begin j := by
  simp [vector.slots, deref_take, hj]

theorem deref_map_some (l : List T) (j : Nat) : deref (l.map some) j = l[j]? := by
  simp only [deref_eq_getElem?, List.getElem?_map]
  cases l[j]? <;> rfl

theorem vector.operator_index_eq (v : vector T) (hv : v.valid) (j : Nat) (hj : j < v.size) :
    v.operator_index j = v.to_list[j]? := by
  rw [← deref_map_some, ← v.slots_eq_map hv, v.deref_slots j hj]
  rfl

theorem vector.valid_of_slots {v : vector T} {l : List T} (h1 : v._begin.length = v._end_cap)
    (h2 : v._end ≤ v._end_cap) (h3 : v.slots = l.map some) : v.valid :=
  ⟨h1, h2, by rw [h3]; exact all_isSome_map_some l⟩

/-- What `do_allocate(n)` does: either the block must grow and the allocator refuses, and
the vector is left as it was; or the call returns with the same elements in a block of
`max n capacity()` slots. -/
theorem vector.do_allocate_cases (v : vector T) (n : Nat) (hv : v.valid) :
    (v.do_allocate n = (.error .bad_alloc, v) ∧ v.capacity < n ∧ v._alloc.allocate n = false) ∨
    (∃ v1, v.do_allocate n = (.ok (), v1) ∧ (n ≤ v.capacity ∨ v._alloc.allocate n = true) ∧
      v1._alloc = v._alloc ∧ v1._end = v._end ∧ v1._end_cap = max n v._end_cap ∧
      v1.slots = v.slots ∧ v1._begin.length = v1._end_cap) := by
  obtain ⟨h1, h2, _⟩ := hv
  unfold vector.do_allocate
  by_cases hn : n > v.capacity
  · by_cases ha : v._alloc.allocate n = true
    · right
      rw [if_pos hn, if_pos ha]
      simp only [vector.capacity] at hn
      refine ⟨_, rfl, Or.inr ha, rfl, rfl, ?_, ?_, ?_⟩
      · show n = max n v._end_cap
        omega
      · apply ext_deref
        · simp only [vector.slots, vector.size, for_up, List.length_take,
            for_up_aux_copy_length, List.length_replicate]
          omega
        · intro j _
          simp only [vector.slots, vector.size, for_up, deref_take, for_up_aux_copy_deref]
          simp only [List.length_replicate, deref_replicate]
          split_ifs <;> first | rfl | (exfalso; omega)
      · simp only [for_up, for_up_aux_copy_length, List.length_replicate]
    · left
      simp only [Bool.not_eq_true] at ha
      rw [if_pos hn]
      exact ⟨by simp [ha], hn, ha⟩
  · right
    rw [if_neg hn]
    exact ⟨v, rfl, Or.inl (by omega), rfl, rfl,
      by simp only [vector.capacity] at hn; omega, rfl, h1⟩

end vector_lemmas

section growth_lemmas
variable {T : Type}

/-- The growth step shared by `push_back` and the `insert` overloads: when the guard `c`
holds, `do_allocate(m)` with `m` above the current capacity. -/
theorem vector.grow_cases (v : vector T) (c : Prop) [Decidable c] (m : Nat) (hv : v.valid)
    (hm : c → v.capacity < m) :
    ((if c then v.do_allocate m else (.ok (), v)) = (.error .bad_alloc, v) ∧ c ∧
        v._alloc.allocate m = false) ∨
    (∃ v1, (if c then v.do_allocate m else (.ok (), v)) = (.ok (), v1) ∧
      (¬ c ∨ v._alloc.allocate m = true) ∧
      v1._alloc = v._alloc ∧ v1._end = v._end ∧
      v1._end_cap = (if c then m else v._end_cap) ∧
      v1.slots = v.slots ∧ v1._begin.length = v1._end_cap) := by
  by_cases hc : c
  · simp only [if_pos hc]
    have hlt := hm hc
    rcases v.do_allocate_cases m hv with ⟨h, _, ha⟩ | ⟨v1, h, hor, h1, h2, h3, h4, h5⟩
    · exact Or.inl ⟨h, hc, ha⟩
    · refine Or.inr ⟨v1, h, Or.inr ?_, h1, h2, ?_, h4, h5⟩
      · rcases hor with hor | hor
        · omega
        · exact hor
      · simp only [vector.capacity] at hlt
        omega
  · simp only [if_neg hc]
    exact Or.inr ⟨v, rfl, Or.inl hc, rfl, rfl, rfl, rfl, hv.1⟩

theorem take_construct_end (p : List (Option T)) (e : Nat) (a : Option T) (he : e < p.length) :
    (construct p e a).take (e + 1) = p.take e ++ [a] := by
  apply ext_deref
  · simp only [List.length_take, length_construct, List.length_append, List.length_singleton]
    omega
  · intro j hj
    simp only [List.length_take, length_construct] at hj
    have hmin : min e p.length = e := by omega
    simp only [deref_take, deref_construct, deref_append, List.length_take, hmin]
    by_cases h1 : j < e
    · rw [if_pos (by omega), if_neg (by omega), if_pos h1, if_pos h1]
    · have h2 : j = e := by omega
      subst h2
      rw [if_pos (by omega), if_pos ⟨rfl, he⟩, if_neg h1, Nat.sub_self, deref_cons_zero]

theorem value_ref.read_outside (x : T) (moved : Bool) (p : List (Option T)) :
    (value_ref.outside x).read moved p = some x := rfl

theorem value_ref.read_moved (val : value_ref T) (p q : List (Option T)) :
    val.read true p = val.read true q := by
  cases val <;> rfl

/-- The object read through a reference after the growth step guarded by `c`: the step
either moves the elements or leaves the vector as it is. -/
theorem vector.read_after_grow (v v1 : vector T) (c : Prop) [Decidable c] (m : Nat)
    (val : value_ref T) (F : List (Option T) → List (Option T))
    (h : (if c then v.do_allocate m else (.ok (), v)) = (.ok (), v1)) :
    val.read (decide c) (F v1._begin) = val.read (decide c) (F v._begin) := by
  by_cases hc : c
  · simp only [hc, decide_True]
    exact value_ref.read_moved val _ _
  · rw [if_neg hc] at h
    have h2 : v = v1 := (Prod.mk.inj h).2
    rw [h2]

/-- What `push_back(val)` does on a valid vector: the new last slot receives what is read
through `val` once the growth step has run. -/
theorem vector.push_back_cases (v : vector T) (val : value_ref T) (hv : v.valid) :
    (v.push_back val = (.error .bad_alloc, v) ∧ v.size = v.capacity ∧
        v._alloc.allocate (if v.size = 0 then 1 else v.size * 2) = false) ∨
    (∃ v2, v.push_back val = (.ok (), v2) ∧
      (v.size ≠ v.capacity ∨ v._alloc.allocate (if v.size = 0 then 1 else v.size * 2) = true) ∧
      v2._alloc = v._alloc ∧ v2._end = v._end + 1 ∧
      v2._end_cap = (if v.size = v.capacity then (if v.size = 0 then 1 else v.size * 2)
        else v._end_cap) ∧
      v2.slots = v.slots ++ [val.read (decide (v.size = v.capacity)) v._begin] ∧
      v2._begin.length = v2._end_cap ∧ v2._end ≤ v2._end_cap) := by
  have hm : v.size = v.capacity → v.capacity < (if v.size = 0 then 1 else v.size * 2) := by
    intro h
    split_ifs <;> omega
  rcases v.grow_cases (v.size = v.capacity) _ hv hm with
    ⟨h, hc, ha⟩ | ⟨v1, h, hor, h1, h2, h3, h4, h5⟩
  · left
    simp only [vector.push_back, h]
    exact ⟨trivial, hc, ha⟩
  · right
    have hle := hv.2.1
    have hlt : v1._end < v1._end_cap := by
      rw [h3, h2]
      by_cases hc : v.size = v.capacity
      · have := hm hc
        rw [if_pos hc]
        simp only [vector.size, vector.capacity] at hc this ⊢
        omega
      · rw [if_neg hc]
        simp only [vector.size, vector.capacity] at hc
        omega
    have hr := vector.read_after_grow v v1 _ _ val id h
    simp only [id] at hr
    have hs : (construct v1._begin v1._end (val.read (decide (v.size = v.capacity)) v1._begin)).take
        (v1._end + 1) = v.slots ++ [val.read (decide (v.size = v.capacity)) v._begin] := by
      rw [take_construct_end _ _ _ (by rw [h5]; exact hlt), ← h4, hr]
      rfl
    refine ⟨{ v1 with
        _begin := construct v1._begin v1._end (val.read (decide (v.size = v.capacity)) v1._begin),
        _end := v1._end + 1 },
      by simp only [vector.push_back, h], hor, h1, by simp [h2], h3, hs, ?_, ?_⟩
    · simp [h5]
    · show v1._end + 1 ≤ v1._end_cap
      omega

/-- What `push_back(val)` does on a valid vector when `val` refers to an object `x` outside
the storage of the vector. -/
theorem vector.push_back_outside_cases (v : vector T) (x : T) (hv : v.valid) :
    (v.push_back (.outside x) = (.error .bad_alloc, v) ∧ v.size = v.capacity ∧
        v._alloc.allocate (if v.size = 0 then 1 else v.size * 2) = false) ∨
    (∃ v2, v.push_back (.outside x) = (.ok (), v2) ∧
      (v.size ≠ v.capacity ∨ v._alloc.allocate (if v.size = 0 then 1 else v.size * 2) = true) ∧
      v2._alloc = v._alloc ∧ v2._end = v._end + 1 ∧
      v2._end_cap = (if v.size = v.capacity then (if v.size = 0 then 1 else v.size * 2)
        else v._end_cap) ∧
      v2.slots = v.slots ++ [some x] ∧ v2.valid) := by
  rcases v.push_back_cases (.outside x) hv with h | ⟨v2, h, hor, h1, h2, h3, h4, h5, h6⟩
  · exact Or.inl h
  · rw [value_ref.read_outside] at h4
    refine Or.inr ⟨v2, h, hor, h1, h2, h3, h4, ?_⟩
    have hs2 : v2.slots = (v.to_list ++ [x]).map some := by
      rw [h4, v.slots_eq_map hv]; simp
    exact vector.valid_of_slots h5 h6 hs2

end growth_lemmas

section shift_lemmas
variable {T : Type}

/-- Opening a gap of `n` slots at `d` in a block holding `e` elements and filling it with
the slots of `L`. -/
theorem insert_core (p p2 L : List (Option T)) (d e n : Nat) (hn : 1 ≤ n)
    (hL : L.length = n) (hd : d ≤ e) (hlen : e + n ≤ p.length) (hl2 : p2.length = p.length)
    (h2 : ∀ j, j < e + n → deref p2 j =
      if d ≤ j ∧ j < d + n then deref L (j - d)
      else deref (for_down d
        (fun i q => destroy (construct q (i + n - 1) (deref q (i - 1))) (i - 1)) e p) j) :
    p2.take (e + n) = (p.take e).take d ++ L ++ (p.take e).drop d := by
  apply ext_deref
  · simp only [List.length_take, List.length_append, List.length_drop, hl2, hL]
    omega
  · intro j hj
    simp only [List.length_take, hl2] at hj
    have hj2 : j < e + n := by omega
    have hm1 : min d (min e p.length) = d := by omega
    simp only [deref_take, deref_append, deref_drop, List.length_take, List.length_append,
      if_pos hj2, h2 j hj2, for_down_shift_deref d n hn e p j hlen, hL, hm1]
    split_ifs <;> first | rfl | (exfalso; omega) | (congr 1; omega)

/-- Closing a run of `k` slots at `d` in a block holding `e` elements, once the run has
been destroyed. -/
theorem erase_core (p p1 : List (Option T)) (d e k : Nat) (hk : 1 ≤ k) (hdk : d + k ≤ e)
    (hlen : e ≤ p.length) (hl1 : p1.length = p.length)
    (h1 : ∀ j, (j < d ∨ d + k ≤ j) → deref p1 j = deref p j) :
    (for_up d (e - k)
      (fun i q => destroy (construct q i (deref q (i + k))) (i + k)) p1).take (e - k) =
      (p.take e).take d ++ (p.take e).drop (d + k) := by
  apply ext_deref
  · simp only [for_up, List.length_take, List.length_append, List.length_drop,
      for_up_aux_shift_length, hl1]
    omega
  · intro j hj
    simp only [for_up, List.length_take, for_up_aux_shift_length, hl1] at hj
    have hj2 : j < e - k := by omega
    have hm1 : min d (min e p.length) = d := by omega
    simp only [for_up, deref_take, deref_append, deref_drop, List.length_take, if_pos hj2,
      for_up_aux_shift_deref k hk (e - k - d) d p1 j (by rw [hl1]; omega), hm1]
    split_ifs <;> first | rfl | (exfalso; omega) | skip
    · rw [h1 _ (Or.inr (by omega))]
      congr 1; omega
    · rw [h1 _ (Or.inl (by omega))]

theorem take_drop_gap {α : Type} (l1 l2 g : List α) (d k : Nat) (h1 : l1.length = d)
    (hg : g.length = k) :
    (l1 ++ g ++ l2).take d ++ (l1 ++ g ++ l2).drop (d + k) = l1 ++ l2 := by
  have e1 : (l1 ++ g ++ l2).take d = l1 := by
    rw [List.append_assoc]
    exact List.take_left' h1
  have e2 : (l1 ++ g ++ l2).drop (d + k) = l2 :=
    List.drop_left' (by simp [h1, hg])
  rw [e1, e2]

end shift_lemmas

section erase_lemmas
variable {T : Type}

/-- What `erase(position)` does for a position before `end()`, whatever the slots hold. -/
theorem vector.erase_cases_of_block (v : vector T) (d : Nat) (h1 : v._begin.length = v._end_cap)
    (h2 : v._end ≤ v._end_cap) (hd : d < v._end) :
    ∃ v1, v.erase d = (d, v1) ∧ v1._alloc = v._alloc ∧ v1._end = v._end - 1 ∧
      v1._end_cap = v._end_cap ∧ v1._begin.length = v._begin.length ∧
      v1.slots = v.slots.take d ++ v.slots.drop (d + 1) := by
  have hne : ¬ d = v.end := by simp only [vector.end]; omega
  refine ⟨{ v with
      _begin := for_up d (v._end - 1)
        (fun i q => destroy (construct q i (deref q (i + 1))) (i + 1)) (destroy v._begin d),
      _end := v._end - 1 }, ?_, rfl, rfl, rfl, ?_, ?_⟩
  · simp only [vector.erase, if_neg hne, vector.begin, vector.size, Nat.sub_zero, Nat.zero_add]
  · simp only [for_up, for_up_aux_shift_length, length_destroy]
  · exact erase_core v._begin (destroy v._begin d) d v._end 1 (Nat.le_refl 1) (by omega)
      (by omega) (length_destroy _ _) (fun j hj => by
        rw [deref_destroy, if_neg (by omega)])

/-- What `erase(position)` does for a position before `end()`. -/
theorem vector.erase_cases (v : vector T) (d : Nat) (hv : v.valid) (hd : d < v._end) :
    ∃ v1, v.erase d = (d, v1) ∧ v1._alloc = v._alloc ∧ v1._end = v._end - 1 ∧
      v1._end_cap = v._end_cap ∧ v1._begin.length = v._begin.length ∧
      v1.slots = v.slots.take d ++ v.slots.drop (d + 1) :=
  v.erase_cases_of_block d hv.1 hv.2.1 hd

/-- What `erase(first, last)` does for a non-empty range inside the vector. -/
theorem vector.erase_range_cases (v : vector T) (d k : Nat) (hv : v.valid) (hk : 1 ≤ k)
    (hd : d + k ≤ v._end) :
    ∃ v1, v.erase_range d (d + k) = (d, v1) ∧ v1._alloc = v._alloc ∧ v1._end = v._end - k ∧
      v1._end_cap = v._end_cap ∧ v1._begin.length = v._begin.length ∧
      v1.slots = v.slots.take d ++ v.slots.drop (d + k) := by
  have h1 := hv.1
  have h2 := hv.2.1
  have hne : ¬ (d = v.end ∨ d = d + k) := by simp only [vector.end]; omega
  have hsub : d + k - d = k := by omega
  have hfun : (fun (i : Nat) (q : List (Option T)) => destroy q (d + i))
      = (fun i q => construct q (d + i) ((fun _ => none) i)) := rfl
  refine ⟨{ v with
      _begin := for_up d (v._end - k)
        (fun i q => destroy (construct q i (deref q (i + k))) (i + k))
        (for_up 0 k (fun i q => destroy q (d + i)) v._begin),
      _end := v._end - k }, ?_, rfl, rfl, rfl, ?_, ?_⟩
  · simp only [vector.erase_range, if_neg hne, vector.begin, vector.size, Nat.sub_zero,
      Nat.zero_add, hsub]
  · simp only [for_up, for_up_aux_shift_length, hfun, for_up_aux_fill_length]
  · refine erase_core v._begin _ d v._end k hk hd (by omega) ?_ ?_
    · simp only [for_up, hfun, for_up_aux_fill_length]
    · intro j hj
      simp only [for_up, hfun, for_up_aux_fill_deref]
      rw [if_neg (by omega)]

end erase_lemmas

section insert_lemmas
variable {T : Type}

/-- What `insert(position, val)` does for a position between `begin()` and `end()`: the
slot at `position` receives what is read through `val` once the growth step and the loop
that shifts the elements have run. -/
theorem vector.insert_cases (v : vector T) (d : Nat) (val : value_ref T) (hv : v.valid)
    (hd : d ≤ v._end) :
    (v.insert d val = (.error .bad_alloc, v) ∧ v.size = v.capacity ∧
        v._alloc.allocate (if v.capacity = 0 then 1 else v.capacity * 2) = false) ∨
    (∃ v2, v.insert d val = (.ok d, v2) ∧
      (v.size ≠ v.capacity ∨
        v._alloc.allocate (if v.capacity = 0 then 1 else v.capacity * 2) = true) ∧
      v2._alloc = v._alloc ∧ v2._end = v._end + 1 ∧
      v2._end_cap = (if v.size = v.capacity then (if v.capacity = 0 then 1 else v.capacity * 2)
        else v._end_cap) ∧
      v2._begin.length = v2._end_cap ∧ v2._end ≤ v2._end_cap ∧
      v2.slots = v.slots.take d ++
        [val.read (decide (v.size = v.capacity)) (for_down d
          (fun i q => destroy (construct q i (deref q (i - 1))) (i - 1)) v._end v._begin)] ++
        v.slots.drop d) := by
  have hm : v.size = v.capacity →
      v.capacity < (if v.capacity = 0 then 1 else v.capacity * 2) := by
    intro _
    split_ifs <;> omega
  rcases v.grow_cases (v.size = v.capacity) _ hv hm with
    ⟨h, hc, ha⟩ | ⟨v1, h, hor, h1, h2, h3, h4, h5⟩
  · left
    simp only [vector.insert, h]
    exact ⟨trivial, hc, ha⟩
  · right
    have hle := hv.2.1
    have hlt : v1._end < v1._end_cap := by
      rw [h3, h2]
      by_cases hc : v.size = v.capacity
      · have := hm hc
        rw [if_pos hc]
        simp only [vector.size, vector.capacity] at hc this ⊢
        omega
      · rw [if_neg hc]
        simp only [vector.size, vector.capacity] at hc
        omega
    have hr := vector.read_after_grow v v1 _ _ val (for_down d
      (fun i q => destroy (construct q i (deref q (i - 1))) (i - 1)) v._end) h
    rw [← hr]
    have hins : v.insert d val = (.ok d, { v1 with
        _begin := construct (for_down d
          (fun i q => destroy (construct q i (deref q (i - 1))) (i - 1)) v._end v1._begin) d
          (val.read (decide (v.size = v.capacity)) (for_down d
            (fun i q => destroy (construct q i (deref q (i - 1))) (i - 1)) v._end v1._begin)),
        _end := v1._end + 1 }) := by
      simp only [vector.insert, h]
      simp only [vector.begin, vector.size, Nat.sub_zero, Nat.zero_add]
    generalize val.read (decide (v.size = v.capacity)) (for_down d
      (fun i q => destroy (construct q i (deref q (i - 1))) (i - 1)) v._end v1._begin) = o at *
    refine ⟨_, hins, hor, h1, by simp [h2], h3, ?_, ?_, ?_⟩
    · have hl := for_down_shift_length (T := T) d 1 v._end v1._begin
      simp only [Nat.add_sub_cancel] at hl
      simp only [length_construct, hl, h5]
    · show v1._end + 1 ≤ v1._end_cap
      omega
    · have hl := for_down_shift_length (T := T) d 1 v._end v1._begin
      simp only [Nat.add_sub_cancel] at hl
      have key := insert_core v1._begin
        (construct (for_down d
          (fun i q => destroy (construct q i (deref q (i - 1))) (i - 1)) v._end v1._begin)
          d o) [o] d v._end 1 (Nat.le_refl 1) rfl hd (by rw [h5]; omega)
        (by simp only [length_construct, hl])
      simp only [Nat.add_sub_cancel] at key
      have key2 := key (fun j hj => by
        rw [deref_construct, hl]
        by_cases hjd : j = d
        · subst hjd
          rw [if_pos ⟨rfl, by rw [h5]; omega⟩, if_pos (by omega), Nat.sub_self, deref_cons_zero]
        · rw [if_neg (by omega), if_neg (by omega)])
      show List.take (v1._end + 1) _ = _
      rw [h2, key2, ← h2]
      show v1.slots.take d ++ [o] ++ v1.slots.drop d = _
      rw [h4]

end insert_lemmas

section insert_many_lemmas
variable {T : Type}

/-- The part shared by `insert(position, n, val)` and `insert(position, first, last)` once
the count `n ≥ 1` of new elements is known and `size() + n` fits in `size_type`: grow if
needed, shift, fill the gap with the values `f 0, ..., f (n-1)`, whose slots are listed in
`L`. -/
theorem vector.insert_many_cases (v : vector T) (d n : Nat) (f : Nat → Option T)
    (L : List (Option T)) (hv : v.valid) (hd : d ≤ v._end) (hn : 1 ≤ n) (hL : L.length = n)
    (hf : ∀ i, i < n → deref L i = f i) (hw : v.size + n < size_type_modulus) :
    ((match (if (v.size + n) % size_type_modulus > v.capacity then
          v.do_allocate (if v.capacity * 2 ≥ (v.size + n) % size_type_modulus then v.capacity * 2 else (v.size + n) % size_type_modulus)
        else (.ok (), v)) with
      | (.error e, v1) => ((.error e : Except exception Unit), v1)
      | (.ok (), v1) =>
        if v.size + n > v1.capacity then (.error .undefined, v1)
        else
          (.ok (), { v1 with
            _begin := for_up 0 n (fun i p => construct p (d + i) (f i))
              (for_down d
                (fun i p => destroy (construct p (i + n - 1) (deref p (i - 1))) (i - 1))
                v.size v1._begin),
            _end := v1._end + n })) = (.error .bad_alloc, v) ∧ v.size + n > v.capacity ∧
        v._alloc.allocate
          (if v.capacity * 2 ≥ v.size + n then v.capacity * 2 else v.size + n) = false) ∨
    (∃ v2, (match (if (v.size + n) % size_type_modulus > v.capacity then
          v.do_allocate (if v.capacity * 2 ≥ (v.size + n) % size_type_modulus then v.capacity * 2 else (v.size + n) % size_type_modulus)
        else (.ok (), v)) with
      | (.error e, v1) => ((.error e : Except exception Unit), v1)
      | (.ok (), v1) =>
        if v.size + n > v1.capacity then (.error .undefined, v1)
        else
          (.ok (), { v1 with
            _begin := for_up 0 n (fun i p => construct p (d + i) (f i))
              (for_down d
                (fun i p => destroy (construct p (i + n - 1) (deref p (i - 1))) (i - 1))
                v.size v1._begin),
            _end := v1._end + n })) = (.ok (), v2) ∧
      (¬ (v.size + n > v.capacity) ∨ v._alloc.allocate
          (if v.capacity * 2 ≥ v.size + n then v.capacity * 2 else v.size + n) = true) ∧
      v2._alloc = v._alloc ∧ v2._end = v._end + n ∧
      v2._end_cap = (if v.size + n > v.capacity then
          (if v.capacity * 2 ≥ v.size + n then v.capacity * 2 else v.size + n)
        else v._end_cap) ∧
      v2._begin.length = v2._end_cap ∧ v2._end ≤ v2._end_cap ∧
      v2.slots = v.slots.take d ++ L ++ v.slots.drop d) := by
  rw [Nat.mod_eq_of_lt hw]
  have hm : v.size + n > v.capacity →
      v.capacity < (if v.capacity * 2 ≥ v.size + n then v.capacity * 2 else v.size + n) := by
    intro _
    split_ifs <;> omega
  rcases v.grow_cases (v.size + n > v.capacity) _ hv hm with
    ⟨h, hc, ha⟩ | ⟨v1, h, hor, h1, h2, h3, h4, h5⟩
  · left
    simp only [h]
    exact ⟨trivial, hc, ha⟩
  · right
    have hle := hv.2.1
    have hlt : v1._end + n ≤ v1._end_cap := by
      rw [h3, h2]
      by_cases hc : v.size + n > v.capacity
      · rw [if_pos hc]
        simp only [vector.size, vector.capacity] at hc ⊢
        split_ifs <;> omega
      · rw [if_neg hc]
        simp only [vector.size, vector.capacity] at hc
        omega
    have hfit : ¬ (v.size + n > v1.capacity) := by
      simp only [vector.size, vector.capacity]
      omega
    have hl : (for_up 0 n (fun i p => construct p (d + i) (f i))
        (for_down d (fun i p => destroy (construct p (i + n - 1) (deref p (i - 1))) (i - 1))
          v._end v1._begin)).length = v1._begin.length := by
      simp only [for_up, for_up_aux_fill_length, for_down_shift_length]
    refine ⟨{ v1 with
        _begin := for_up 0 n (fun i p => construct p (d + i) (f i))
          (for_down d (fun i p => destroy (construct p (i + n - 1) (deref p (i - 1))) (i - 1))
            v._end v1._begin),
        _end := v1._end + n }, ?_, hor, h1, by simp [h2], h3, ?_, hlt, ?_⟩
    · simp only [h, if_neg hfit]
      rfl
    · show List.length _ = v1._end_cap
      rw [hl, h5]
    · have key := insert_core v1._begin _ L d v._end n hn hL hd (by rw [h5]; omega) hl
        (fun j hj => by
          simp only [for_up, for_up_aux_fill_deref, for_down_shift_length, Nat.add_zero,
            Nat.sub_zero]
          by_cases hjd : d ≤ j ∧ j < d + n
          · rw [if_pos ⟨hjd.1, hjd.2, by rw [h5]; omega⟩, if_pos hjd, hf _ (by omega)]
          · rw [if_neg (by omega), if_neg hjd])
      show List.take (v1._end + n) _ = _
      rw [h2, key, ← h2]
      show v1.slots.take d ++ L ++ v1.slots.drop d = _
      rw [h4]

/-- What `insert(position, first, last)` does for a non-empty range when
`size() + (last - first)` fits in `size_type`. -/
theorem vector.insert_range_cases (v : vector T) (d : Nat) (range : List T) (hv : v.valid)
    (hd : d ≤ v._end) (hn : 1 ≤ range.length)
    (hw : v.size + range.length < size_type_modulus) :
    (v.insert_range d range = (.error .bad_alloc, v) ∧ v.size + range.length > v.capacity ∧
        v._alloc.allocate
          (if v.capacity * 2 ≥ v.size + range.length then v.capacity * 2
            else v.size + range.length) = false) ∨
    (∃ v2, v.insert_range d range = (.ok (), v2) ∧
      (¬ (v.size + range.length > v.capacity) ∨ v._alloc.allocate
          (if v.capacity * 2 ≥ v.size + range.length then v.capacity * 2
            else v.size + range.length) = true) ∧
      v2._alloc = v._alloc ∧ v2._end = v._end + range.length ∧
      v2._end_cap = (if v.size + range.length > v.capacity then
          (if v.capacity * 2 ≥ v.size + range.length then v.capacity * 2
            else v.size + range.length)
        else v._end_cap) ∧
      v2._begin.length = v2._end_cap ∧ v2._end ≤ v2._end_cap ∧
      v2.slots = v.slots.take d ++ range.map some ++ v.slots.drop d) := by
  have h0 : ¬ range.length = 0 := by omega
  have key := v.insert_many_cases d range.length (fun i => range[i]?) (range.map some) hv hd hn
    (by simp) (fun i _ => deref_map_some range i) hw
  simp only [vector.insert_range, if_neg h0, vector.begin, Nat.sub_zero]
  exact key

end insert_many_lemmas

section push_pop_lemmas
variable {T : Type}

theorem vector.push_back_all_ok (xs : List T) :
    ∀ (v : vector T), v.valid → (∀ n, v._alloc.allocate n = true) →
      (v.push_back_all xs).1 = .ok () := by
  induction xs with
  | nil => intro v _ _; rfl
  | cons x xs ih =>
    intro v hv hal
    rcases v.push_back_outside_cases x hv with ⟨_, _, ha⟩ | ⟨v2, h, _, h1, _, _, _, hv2⟩
    · rw [hal] at ha; cases ha
    · simp only [vector.push_back_all, h]
      exact ih v2 hv2 (by rw [h1]; exact hal)

theorem vector.pop_back_slots (v : vector T) (hv : v.valid) (h : v._end ≠ 0) :
    v.pop_back.slots = v.slots.take (v._end - 1) := by
  have h1 := hv.1
  have h2 := hv.2.1
  simp only [vector.pop_back, if_pos h, vector.slots]
  apply ext_deref
  · simp only [List.length_take, length_destroy]
    omega
  · intro j _
    simp only [deref_take, deref_destroy]
    split_ifs <;> first | rfl | (exfalso; omega)

end push_pop_lemmas


section reserve_and_access
variable {T : Type}

/-- C1: for every vector `v` and every `n ≤ v.max_size()`, `v.reserve(n)` returns normally
unless the block has to grow and the allocator refuses the request; after it has returned,
`capacity() ≥ n`, `capacity()` is not smaller than before, `size()` is unchanged, and every
element at an index below `size()` is the element that was there before, in the same order. -/
theorem reserve_spec (v : vector T) (sizeof_value_type n : Nat) (hv : v.valid)
    (hn : n ≤ v.max_size sizeof_value_type) :
    (v.reserve sizeof_value_type n).1 =
        (if v.capacity < n ∧ v._alloc.allocate n = false then .error .bad_alloc else .ok ()) ∧
    ((v.reserve sizeof_value_type n).1 = .ok () →
      n ≤ (v.reserve sizeof_value_type n).2.capacity ∧
      v.capacity ≤ (v.reserve sizeof_value_type n).2.capacity ∧
      (v.reserve sizeof_value_type n).2.size = v.size ∧
      (∀ i, i < v.size →
        (v.reserve sizeof_value_type n).2.operator_index i = v.operator_index i) ∧
      (v.reserve sizeof_value_type n).2.to_list = v.to_list ∧
      (v.reserve sizeof_value_type n).2.valid) := by
  have hr : v.reserve sizeof_value_type n = v.do_allocate n := by
    unfold vector.reserve
    rw [if_neg (by omega)]
  rw [hr]
  rcases v.do_allocate_cases n hv with ⟨h, hc, ha⟩ | ⟨v1, h, hc, _, he, hcap, hs, hl⟩
  · rw [h]
    refine ⟨by rw [if_pos ⟨hc, ha⟩], fun hok => by cases hok⟩
  · rw [h]
    refine ⟨?_, fun _ => ⟨?_, ?_, he, ?_, ?_, ?_⟩⟩
    · rw [if_neg]
      rintro ⟨h1, h2⟩
      rcases hc with hc | hc
      · omega
      · rw [h2] at hc; cases hc
    · show n ≤ v1._end_cap
      omega
    · show v._end_cap ≤ v1._end_cap
      omega
    · intro i hi
      show deref v1._begin i = deref v._begin i
      rw [← v1.deref_slots i (by rw [he]; exact hi), ← v.deref_slots i hi, hs]
    · simp only [vector.to_list, hs]
    · have h2 := hv.2.1
      exact vector.valid_of_slots hl (show v1._end ≤ v1._end_cap by omega)
        (hs.trans (v.slots_eq_map hv))

/-- Reserving ten slots on `sample`, whose allocator grants the request. -/
theorem reserve_spec_witness :
    sample.valid ∧ 10 ≤ sample.max_size 4 ∧
      (sample.reserve 4 10).1 = .ok () ∧
      10 ≤ (sample.reserve 4 10).2.capacity ∧
      (sample.reserve 4 10).2.size = 3 ∧
      (sample.reserve 4 10).2.to_list = [10, 20, 30] :=
  have h := reserve_spec sample 4 10 (by decide) (by decide)
  ⟨by decide, by decide, by decide, (h.2 (by decide)).1, (h.2 (by decide)).2.2.1,
    (h.2 (by decide)).2.2.2.2.1⟩

/-- C2: `reserve(n)` throws `length_error` exactly when `n > max_size()`; in particular
`reserve(max_size() + 1)` throws it; and when it is thrown the vector (its `size()`, its
`capacity()` and its element sequence) is what it was before the call. -/
theorem reserve_length_error (v : vector T) (sizeof_value_type n : Nat) :
    ((v.reserve sizeof_value_type n).1 = .error .length_error ↔
        n > v.max_size sizeof_value_type) ∧
    (v.reserve sizeof_value_type (v.max_size sizeof_value_type + 1)).1
        = .error .length_error ∧
    ((v.reserve sizeof_value_type n).1 = .error .length_error →
      (v.reserve sizeof_value_type n).2 = v ∧
      (v.reserve sizeof_value_type n).2.size = v.size ∧
      (v.reserve sizeof_value_type n).2.capacity = v.capacity ∧
      (v.reserve sizeof_value_type n).2.to_list = v.to_list) := by
  have key : ∀ m, m > v.max_size sizeof_value_type →
      v.reserve sizeof_value_type m = (.error .length_error, v) := by
    intro m hm
    unfold vector.reserve
    rw [if_pos hm]
  have key2 : ∀ m, ¬ m > v.max_size sizeof_value_type →
      (v.reserve sizeof_value_type m).1 ≠ .error .length_error := by
    intro m hm
    unfold vector.reserve vector.do_allocate
    rw [if_neg hm]
    split_ifs <;> simp
  refine ⟨⟨fun h => ?_, fun h => by rw [key n h]⟩, by rw [key _ (by omega)], fun h => ?_⟩
  · by_contra hc
    exact key2 n hc h
  · have hgt : n > v.max_size sizeof_value_type := by
      by_contra hc
      exact key2 n hc h
    rw [key n hgt]
    exact ⟨rfl, rfl, rfl, rfl⟩

/-- A request of `2 ^ 62` slots for 4-byte elements on `sample` throws and changes nothing. -/
theorem reserve_length_error_witness :
    (sample.reserve 4 (2 ^ 62)).1 = .error .length_error ∧
      (sample.reserve 4 (2 ^ 62)).2.size = 3 ∧
      (sample.reserve 4 (2 ^ 62)).2.capacity = 4 ∧
      (sample.reserve 4 (2 ^ 62)).2.to_list = [10, 20, 30] :=
  have h := (reserve_length_error sample 4 (2 ^ 62)).2.2 (by decide)
  ⟨by decide, h.2.1, h.2.2.1, h.2.2.2⟩

/-- C3: `at(n)` throws `out_of_range` exactly when `n ≥ size()`, so `at(size())` throws on
every vector; when `n < size()` it returns what `operator[](n)` returns, which is the
`n`-th element of the sequence. -/
theorem at_spec (v : vector T) (n : Nat) :
    (v.at n = .error .out_of_range ↔ n ≥ v.size) ∧
    v.at v.size = .error .out_of_range ∧
    (n < v.size → v.at n = .ok (v.operator_index n)) ∧
    (v.valid → n < v.size → v.operator_index n = v.to_list[n]? ∧ (v.operator_index n).isSome) := by
  refine ⟨⟨fun h => ?_, fun h => ?_⟩, ?_, fun h => ?_, fun hv h => ⟨?_, ?_⟩⟩
  · by_contra hc
    unfold vector.at at h
    rw [if_neg hc] at h
    cases h
  · unfold vector.at
    rw [if_pos h]
  · unfold vector.at
    rw [if_pos (Nat.le_refl _)]
  · unfold vector.at
    rw [if_neg (by omega)]
    rfl
  · exact v.operator_index_eq hv n h
  · rw [v.operator_index_eq hv n h]
    have := v.length_to_list hv
    simp [List.getElem?_eq_getElem (l := v.to_list) (n := n) (by omega)]

/-- Checked access on `sample` at an index inside and at `size()`. -/
theorem at_spec_witness :
    sample.valid ∧ 1 < sample.size ∧ sample.at 1 = .ok (sample.operator_index 1) ∧
      sample.operator_index 1 = sample.to_list[1]? ∧ sample.at 3 = .error .out_of_range :=
  have h := at_spec sample 1
  ⟨by decide, by decide, h.2.2.1 (by decide), (h.2.2.2 (by decide) (by decide)).1,
    (at_spec sample 3).2.1⟩

end reserve_and_access

section push_and_pop
variable {T : Type}

/-- C5: `pop_back()` on an empty vector changes nothing; on a non-empty vector it decreases
`size()` by one, keeps `capacity()`, and leaves the old elements at indices `0 .. size-2` in
the same order. -/
theorem pop_back_spec (v : vector T) (hv : v.valid) :
    (v.size = 0 →
      v.pop_back = v ∧ v.pop_back.size = v.size ∧ v.pop_back.capacity = v.capacity ∧
      v.pop_back.to_list = v.to_list) ∧
    (v.size ≠ 0 →
      v.pop_back.size + 1 = v.size ∧ v.pop_back.capacity = v.capacity ∧
      v.pop_back.to_list = v.to_list.take (v.size - 1) ∧
      (∀ i, i < v.size - 1 → v.pop_back.operator_index i = v.operator_index i) ∧
      v.pop_back.valid) := by
  constructor
  · intro h
    have h0 : v.pop_back = v := by
      simp only [vector.size] at h
      simp [vector.pop_back, h]
    rw [h0]
    exact ⟨rfl, rfl, rfl, rfl⟩
  · intro h
    simp only [vector.size] at h
    have hs := v.pop_back_slots hv h
    have hs2 : v.pop_back.slots = (v.to_list.take (v.size - 1)).map some := by
      rw [hs, v.slots_eq_map hv, List.map_take]
      rfl
    have he : v.pop_back._end = v._end - 1 := by simp [vector.pop_back, if_pos h]
    have hc : v.pop_back._end_cap = v._end_cap := by simp [vector.pop_back, if_pos h]
    have hl : v.pop_back._begin.length = v._begin.length := by
      simp [vector.pop_back, if_pos h]
    have h1 := hv.1
    have h2 := hv.2.1
    refine ⟨?_, hc, vector.to_list_of_slots hs2, ?_, ?_⟩
    · simp only [vector.size, he]
      omega
    · intro i hi
      simp only [vector.size] at hi
      show deref v.pop_back._begin i = deref v._begin i
      rw [← v.pop_back.deref_slots i (by omega), ← v.deref_slots i (by omega), hs, deref_take,
        if_pos hi]
    · exact vector.valid_of_slots (by omega) (by omega) hs2

/-- Removing the last element of `sample`. -/
theorem pop_back_spec_witness :
    sample.valid ∧ sample.size ≠ 0 ∧ sample.pop_back.size + 1 = sample.size ∧
      sample.pop_back.capacity = sample.capacity ∧
      sample.pop_back.to_list = sample.to_list.take (sample.size - 1) :=
  have h := (pop_back_spec sample (by decide)).2 (by decide)
  ⟨by decide, by decide, h.1, h.2.1, h.2.2.1⟩

end push_and_pop

section erase_claims
variable {T : Type}

/-- C6: for every vector and every position `p = begin() + d` with `d ≤ size()`: if
`p == end()`, `erase(p)` changes nothing and returns `p`; otherwise the new sequence is the
old one with the element at index `d` removed (elements before `d` unchanged, each later
element one place to the left), `size()` is one less, `capacity()` is unchanged, and the
returned iterator is `begin() + d`, which refers to the element that followed the erased one
when there is one.  Erasing index 1 of `[10, 20, 30]` gives `[10, 30]` and an iterator to
`30`. -/
theorem erase_spec (v : vector T) (d : Nat) (hv : v.valid) (hd : d ≤ v.size) :
    (v.begin + d = v.end → v.erase (v.begin + d) = (v.begin + d, v)) ∧
    (v.begin + d ≠ v.end →
      (v.erase (v.begin + d)).2.to_list = v.to_list.eraseIdx d ∧
      (∀ i, i < d → (v.erase (v.begin + d)).2.operator_index i = v.operator_index i) ∧
      (∀ i, d ≤ i → i + 1 < v.size →
        (v.erase (v.begin + d)).2.operator_index i = v.operator_index (i + 1)) ∧
      (v.erase (v.begin + d)).2.size + 1 = v.size ∧
      (v.erase (v.begin + d)).2.capacity = v.capacity ∧
      (v.erase (v.begin + d)).1 = (v.erase (v.begin + d)).2.begin + d ∧
      (d + 1 < v.size →
        (v.erase (v.begin + d)).2.operator_index (v.erase (v.begin + d)).1
          = v.operator_index (d + 1)) ∧
      (v.erase (v.begin + d)).2.valid) ∧
    ((((vector.vector_default allocator.unlimited).push_back_all [10, 20, 30]).2.erase 1).2.to_list
        = [10, 30] ∧
      (((vector.vector_default allocator.unlimited).push_back_all [10, 20, 30]).2.erase 1).2.operator_index
        (((vector.vector_default allocator.unlimited).push_back_all [10, 20, 30]).2.erase 1).1
        = some 30) := by
  have hb : v.begin + d = d := by simp [vector.begin]
  rw [hb]
  refine ⟨fun h => ?_, fun h => ?_, by decide⟩
  · simp only [vector.erase, if_pos h]
  · simp only [vector.end] at h
    simp only [vector.size] at hd
    have hlt : d < v._end := by omega
    obtain ⟨v1, he, _, h2, h3, h4, h5⟩ := v.erase_cases d hv hlt
    rw [he]
    dsimp only
    have h1 := hv.1
    have hle := hv.2.1
    have hs : v1.slots = (v.to_list.eraseIdx d).map some := by
      rw [h5, v.slots_eq_map hv, List.eraseIdx_eq_take_drop_succ]
      simp [List.map_take, List.map_drop]
    have hlen := v.length_slots hv
    have hidx : ∀ i, d ≤ i → i + 1 < v._end → deref v1._begin i = deref v._begin (i + 1) := by
      intro i hi1 hi2
      rw [← v1.deref_slots i (by omega), ← v.deref_slots (i + 1) hi2, h5, deref_append,
        List.length_take, if_neg (by omega), deref_drop]
      congr 1
      omega
    refine ⟨vector.to_list_of_slots hs, ?_, ?_, ?_, h3, ?_, ?_, ?_⟩
    · intro i hi
      show deref v1._begin i = deref v._begin i
      rw [← v1.deref_slots i (by omega), ← v.deref_slots i (by omega), h5, deref_append,
        List.length_take, if_pos (by omega), deref_take, if_pos hi]
    · intro i hi1 hi2
      exact hidx i hi1 hi2
    · simp only [vector.size, h2]
      omega
    · simp [vector.begin]
    · intro hlt2
      exact hidx d (Nat.le_refl d) hlt2
    · exact vector.valid_of_slots (by omega) (by omega) hs

/-- Erasing the middle element of `sample`. -/
theorem erase_spec_witness :
    sample.valid ∧ 1 ≤ sample.size ∧ sample.begin + 1 ≠ sample.end ∧
      (sample.erase (sample.begin + 1)).2.to_list = sample.to_list.eraseIdx 1 ∧
      (sample.erase (sample.begin + 1)).2.size + 1 = sample.size :=
  have h := (erase_spec sample 1 (by decide) (by decide)).2.1 (by decide)
  ⟨by decide, by decide, by decide, h.1, h.2.2.2.1⟩

/-- C7: for every vector and every range `[first, last)` with `first = begin() + d`,
`last = first + k` and `d + k ≤ size()`: if `first == end()` or `first == last`,
`erase(first, last)` changes nothing and returns `first`; otherwise the new sequence is the
old elements at `[0, d)` followed by the old elements at `[d + k, size)`, `size()` is `k`
less, `capacity()` is unchanged, and the returned iterator is `begin() + d`. -/
theorem erase_range_spec (v : vector T) (d k : Nat) (hv : v.valid) (hd : d + k ≤ v.size) :
    (v.begin + d = v.end ∨ v.begin + d = v.begin + d + k →
      v.erase_range (v.begin + d) (v.begin + d + k) = (v.begin + d, v)) ∧
    (¬ (v.begin + d = v.end ∨ v.begin + d = v.begin + d + k) →
      (v.erase_range (v.begin + d) (v.begin + d + k)).2.to_list
        = v.to_list.take d ++ v.to_list.drop (d + k) ∧
      (v.erase_range (v.begin + d) (v.begin + d + k)).2.size + k = v.size ∧
      (v.erase_range (v.begin + d) (v.begin + d + k)).2.capacity = v.capacity ∧
      (v.erase_range (v.begin + d) (v.begin + d + k)).1
        = (v.erase_range (v.begin + d) (v.begin + d + k)).2.begin + d ∧
      (d + k < v.size →
        (v.erase_range (v.begin + d) (v.begin + d + k)).2.operator_index
          (v.erase_range (v.begin + d) (v.begin + d + k)).1 = v.operator_index (d + k)) ∧
      (v.erase_range (v.begin + d) (v.begin + d + k)).2.valid) := by
  have hb : v.begin + d = d := by simp [vector.begin]
  rw [hb]
  refine ⟨fun h => ?_, fun h => ?_⟩
  · simp only [vector.erase_range, if_pos h]
  · simp only [vector.end] at h
    simp only [vector.size] at hd
    have hk : 1 ≤ k := by omega
    obtain ⟨v1, he, _, h2, h3, h4, h5⟩ := v.erase_range_cases d k hv hk hd
    rw [he]
    dsimp only
    have h1 := hv.1
    have hle := hv.2.1
    have hs : v1.slots = (v.to_list.take d ++ v.to_list.drop (d + k)).map some := by
      rw [h5, v.slots_eq_map hv]
      simp [List.map_take, List.map_drop]
    have hlen := v.length_slots hv
    refine ⟨vector.to_list_of_slots hs, ?_, h3, ?_, ?_, ?_⟩
    · simp only [vector.size, h2]
      omega
    · simp [vector.begin]
    · intro hlt2
      simp only [vector.size] at hlt2
      show deref v1._begin d = deref v._begin (d + k)
      rw [← v1.deref_slots d (by omega), ← v.deref_slots (d + k) hlt2, h5, deref_append,
        List.length_take, if_neg (by omega), deref_drop]
      congr 1
      omega
    · exact vector.valid_of_slots (by omega) (by omega) hs

/-- Erasing the first two elements of `sample`. -/
theorem erase_range_spec_witness :
    sample.valid ∧ 0 + 2 ≤ sample.size ∧
      (sample.erase_range (sample.begin + 0) (sample.begin + 0 + 2)).2.to_list
        = sample.to_list.take 0 ++ sample.to_list.drop (0 + 2) ∧
      (sample.erase_range (sample.begin + 0) (sample.begin + 0 + 2)).2.size + 2 = sample.size :=
  have h := (erase_range_spec sample 0 2 (by decide) (by decide)).2 (by decide)
  ⟨by decide, by decide, h.1, h.2.1⟩

end erase_claims

section insert_claims
variable {T : Type}

/-- C10: for every vector, every offset `d ≤ size()` and every argument `x`, an object
outside the storage of the vector or a reference to one of its slots, either
`insert(begin() + d, x)` throws `bad_alloc` (capacity exhausted and the allocator refuses), or
it returns an iterator `it` and `erase(it)` then leaves a vector with the size and the
element sequence the vector had before the insert; only `capacity()` may differ, and it can
only have grown. -/
theorem insert_erase_round_trip (v : vector T) (d : Nat) (val : value_ref T) (hv : v.valid)
    (hd : d ≤ v.size) :
    ((v.insert (v.begin + d) val).1 = .error .bad_alloc ∧ v.size = v.capacity ∧
      v._alloc.allocate (if v.capacity = 0 then 1 else v.capacity * 2) = false) ∨
    (∃ it, (v.insert (v.begin + d) val).1 = .ok it ∧
      it = (v.insert (v.begin + d) val).2.begin + d ∧
      ((v.insert (v.begin + d) val).2.erase it).2.to_list = v.to_list ∧
      ((v.insert (v.begin + d) val).2.erase it).2.size = v.size ∧
      v.capacity ≤ ((v.insert (v.begin + d) val).2.erase it).2.capacity ∧
      ((v.insert (v.begin + d) val).2.erase it).2.valid) := by
  have hb : v.begin + d = d := by simp [vector.begin]
  rw [hb]
  simp only [vector.size] at hd
  rcases v.insert_cases d val hv hd with ⟨h, hc, ha⟩ | ⟨v2, h, _, _, h2, h3, h4, h5, h6⟩
  · left
    rw [h]
    exact ⟨rfl, hc, ha⟩
  · right
    rw [h]
    dsimp only
    have hlen := v.length_slots hv
    generalize val.read (decide (v.size = v.capacity)) (for_down d
      (fun i q => destroy (construct q i (deref q (i - 1))) (i - 1)) v._end v._begin) = o at h6
    obtain ⟨v3, he, _, e2, e3, e4, e5⟩ := v2.erase_cases_of_block d h4 h5 (by omega)
    have hs3 : v3.slots = v.slots := by
      rw [e5, h6, take_drop_gap (v.slots.take d) (v.slots.drop d) [o] d 1
        (by simp [List.length_take]; omega) rfl,
        List.take_append_drop]
    have hle := hv.2.1
    refine ⟨d, rfl, by simp [vector.begin], ?_, ?_, ?_, ?_⟩
    · rw [he]
      simp only [vector.to_list, hs3]
    · rw [he]
      simp only [vector.size, e2, h2]
      omega
    · rw [he]
      simp only [vector.capacity, e3, h3]
      split_ifs <;> omega
    · rw [he]
      exact vector.valid_of_slots (by rw [e4, h4, e3]) (by rw [e2, e3, h2]; omega)
        (hs3.trans (v.slots_eq_map hv))

/-- Insert then erase at offset 0 of `sample` with the argument `sample[1]`; on
`sample_full` the insert throws. -/
theorem insert_erase_round_trip_witness :
    sample.valid ∧ 0 ≤ sample.size ∧
      ((sample.insert (sample.begin + 0) (.element 1)).2.erase 0).2.to_list = sample.to_list ∧
      ((sample_full.insert (sample_full.begin + 1) (.outside 15)).1 = .error .bad_alloc) :=
  ⟨by decide, by decide,
    (insert_erase_round_trip sample 0 (.element 1) (by decide) (by decide)).elim
      (fun h => absurd h.1 (by decide))
      (fun h => by
        obtain ⟨it, h1, _, h3, _⟩ := h
        have hit : it = 0 := by
          have h0 : (sample.insert (sample.begin + 0) (.element 1)).1 = .ok 0 := by decide
          rw [h0] at h1
          exact (Except.ok.inj h1).symm
        subst hit
        exact h3),
    by decide⟩

end insert_claims

section outcome_lemmas
variable {T : Type}

/-- The outcome of `do_allocate(n)` on any vector: the sizes after the call. -/
theorem vector.do_allocate_outcome (v : vector T) (n : Nat) :
    (v.do_allocate n = (.error .bad_alloc, v) ∧ v.capacity < n ∧ v._alloc.allocate n = false) ∨
    (∃ v1, v.do_allocate n = (.ok (), v1) ∧ (n ≤ v.capacity ∨ v._alloc.allocate n = true) ∧
      v1._alloc = v._alloc ∧ v1._end = v._end ∧ v1._end_cap = max n v._end_cap) := by
  unfold vector.do_allocate
  by_cases hn : n > v.capacity
  · by_cases ha : v._alloc.allocate n = true
    · right
      rw [if_pos hn, if_pos ha]
      simp only [vector.capacity] at hn
      exact ⟨_, rfl, Or.inr ha, rfl, rfl, show n = max n v._end_cap by omega⟩
    · left
      simp only [Bool.not_eq_true] at ha
      rw [if_pos hn]
      exact ⟨by simp [ha], hn, ha⟩
  · right
    rw [if_neg hn]
    exact ⟨v, rfl, Or.inl (by omega), rfl, rfl,
      by simp only [vector.capacity] at hn; omega⟩

/-- The outcome of the guarded growth step on any vector. -/
theorem vector.grow_outcome (v : vector T) (c : Prop) [Decidable c] (m : Nat)
    (hm : c → v.capacity < m) :
    ((if c then v.do_allocate m else (.ok (), v)) = (.error .bad_alloc, v) ∧ c ∧
        v._alloc.allocate m = false) ∨
    (∃ v1, (if c then v.do_allocate m else (.ok (), v)) = (.ok (), v1) ∧
      (¬ c ∨ v._alloc.allocate m = true) ∧
      v1._alloc = v._alloc ∧ v1._end = v._end ∧
      v1._end_cap = (if c then m else v._end_cap)) := by
  by_cases hc : c
  · simp only [if_pos hc]
    have hlt := hm hc
    rcases v.do_allocate_outcome m with ⟨h, _, ha⟩ | ⟨v1, h, hor, h1, h2, h3⟩
    · exact Or.inl ⟨h, hc, ha⟩
    · refine Or.inr ⟨v1, h, Or.inr ?_, h1, h2, ?_⟩
      · rcases hor with hor | hor
        · omega
        · exact hor
      · simp only [vector.capacity] at hlt
        omega
  · simp only [if_neg hc]
    exact Or.inr ⟨v, rfl, Or.inl hc, rfl, rfl, rfl⟩

theorem vector.clear_loop_length (e : Nat) :
    ∀ (p : List (Option T)), (vector.clear_loop e p).length = p.length := by
  induction e with
  | zero => intro p; rfl
  | succ e ih => intro p; simp [vector.clear_loop, ih]

/-- The loop that constructs at `_end` and advances `_end`, run `k` times from step `i0`. -/
theorem vector.construct_at_end_loop (f : Nat → Option T) (k : Nat) :
    ∀ (i0 : Nat) (w : vector T),
      (for_up_aux (vector.construct_at_end f) k i0 w)._alloc = w._alloc ∧
      (for_up_aux (vector.construct_at_end f) k i0 w)._end_cap = w._end_cap ∧
      (for_up_aux (vector.construct_at_end f) k i0 w)._end = w._end + k ∧
      (for_up_aux (vector.construct_at_end f) k i0 w)._begin.length = w._begin.length ∧
      ∀ j, deref (for_up_aux (vector.construct_at_end f) k i0 w)._begin j =
        if w._end ≤ j ∧ j < w._end + k ∧ j < w._begin.length then f (i0 + (j - w._end))
        else deref w._begin j := by
  induction k with
  | zero =>
    intro i0 w
    refine ⟨rfl, rfl, rfl, rfl, fun j => ?_⟩
    simp only [for_up_aux]
    split_ifs <;> first | rfl | (exfalso; omega)
  | succ k ih =>
    intro i0 w
    obtain ⟨h1, h2, h3, h4, h5⟩ := ih (i0 + 1) (vector.construct_at_end f i0 w)
    simp only [for_up_aux]
    refine ⟨h1, h2, ?_, ?_, fun j => ?_⟩
    · rw [h3]
      simp only [vector.construct_at_end]
      omega
    · rw [h4]
      simp only [vector.construct_at_end, length_construct]
    · rw [h5]
      simp only [vector.construct_at_end, length_construct, deref_construct]
      split_ifs <;> first | rfl | (exfalso; omega) | (congr 1; omega)

/-- The loop of `resize` that calls `pop_back()` `k` times. -/
theorem vector.pop_back_loop (k : Nat) :
    ∀ (i0 : Nat) (w : vector T),
      (for_up_aux (fun _ (u : vector T) => u.pop_back) k i0 w)._alloc = w._alloc ∧
      (for_up_aux (fun _ (u : vector T) => u.pop_back) k i0 w)._end_cap = w._end_cap ∧
      (for_up_aux (fun _ (u : vector T) => u.pop_back) k i0 w)._end = w._end - k ∧
      (for_up_aux (fun _ (u : vector T) => u.pop_back) k i0 w)._begin.length
        = w._begin.length ∧
      ∀ j, j < w._end - k →
        deref (for_up_aux (fun _ (u : vector T) => u.pop_back) k i0 w)._begin j
          = deref w._begin j := by
  induction k with
  | zero => intro i0 w; exact ⟨rfl, rfl, rfl, rfl, fun _ _ => rfl⟩
  | succ k ih =>
    intro i0 w
    obtain ⟨h1, h2, h3, h4, h5⟩ := ih (i0 + 1) w.pop_back
    simp only [for_up_aux]
    by_cases he : w._end ≠ 0
    · have hp : w.pop_back =
          { w with _begin := destroy w._begin (w._end - 1), _end := w._end - 1 } := by
        simp only [vector.pop_back, if_pos he]
      rw [hp] at h1 h2 h3 h4 h5 ⊢
      refine ⟨h1, h2, ?_, ?_, fun j hj => ?_⟩
      · rw [h3]
        show w._end - 1 - k = w._end - (k + 1)
        omega
      · rw [h4]
        simp only [length_destroy]
      · rw [h5 j (by show j < w._end - 1 - k; omega)]
        simp only [deref_destroy]
        rw [if_neg (by omega)]
    · have hp : w.pop_back = w := by
        simp only [vector.pop_back, if_neg he]
      rw [hp] at h1 h2 h3 h4 h5 ⊢
      refine ⟨h1, h2, ?_, h4, fun j hj => ?_⟩
      · rw [h3]; omega
      · exact h5 j (by omega)

end outcome_lemmas
section assign_lemmas
variable {T : Type}

/-- The part shared by both `assign` overloads once the count `n` is known: grow if
needed, clear, construct the values `f 0, ..., f (n-1)`, whose slots are listed in `L`. -/
theorem vector.assign_many_cases (v : vector T) (n : Nat) (f : Nat → Option T)
    (L : List (Option T)) (hv : v.valid) (hL : L.length = n)
    (hf : ∀ i, i < n → deref L i = f i) :
    ((match (if n > v.capacity then v.do_allocate n else (.ok (), v)) with
      | (.error e, v1) => ((.error e : Except exception Unit), v1)
      | (.ok (), v1) =>
        (.ok (), { v1.clear with
          _begin := for_up 0 n (fun i p => construct p i (f i)) v1.clear._begin,
          _end := n })) = (.error .bad_alloc, v) ∧ n > v.capacity ∧
        v._alloc.allocate n = false) ∨
    (∃ v2, (match (if n > v.capacity then v.do_allocate n else (.ok (), v)) with
      | (.error e, v1) => ((.error e : Except exception Unit), v1)
      | (.ok (), v1) =>
        (.ok (), { v1.clear with
          _begin := for_up 0 n (fun i p => construct p i (f i)) v1.clear._begin,
          _end := n })) = (.ok (), v2) ∧
      (¬ (n > v.capacity) ∨ v._alloc.allocate n = true) ∧
      v2._alloc = v._alloc ∧ v2._end = n ∧
      v2._end_cap = (if n > v.capacity then n else v._end_cap) ∧
      v2._begin.length = v2._end_cap ∧ v2._end ≤ v2._end_cap ∧ v2.slots = L) := by
  rcases v.grow_cases (n > v.capacity) n hv (fun h => h) with
    ⟨h, hc, ha⟩ | ⟨v1, h, hor, h1, h2, h3, h4, h5⟩
  · left
    simp only [h]
    exact ⟨trivial, hc, ha⟩
  · right
    have hle : n ≤ v1._end_cap := by
      rw [h3]
      split_ifs with hc
      · exact Nat.le_refl n
      · simp only [vector.capacity] at hc
        omega
    have hl : (for_up 0 n (fun i p => construct p i (f i)) v1.clear._begin).length
        = v1._end_cap := by
      simp only [for_up, for_up_aux_copy_length, vector.clear, vector.clear_loop_length, h5]
    refine ⟨{ v1.clear with
        _begin := for_up 0 n (fun i p => construct p i (f i)) v1.clear._begin,
        _end := n }, ?_, hor, h1, rfl, h3, hl, hle, ?_⟩
    · simp only [h]
    · show List.take n _ = L
      apply ext_deref
      · rw [List.length_take, hl, hL]
        omega
      · intro j hj
        rw [List.length_take, hl] at hj
        have hj2 : j < n := by omega
        simp only [deref_take, if_pos hj2, for_up, for_up_aux_copy_deref, Nat.sub_zero,
          Nat.zero_add, vector.clear, vector.clear_loop_length, h5]
        rw [if_pos ⟨Nat.zero_le j, hj2, by omega⟩, hf j hj2]

/-- What `assign(first, last)` does on a valid vector. -/
theorem vector.assign_range_cases (v : vector T) (range : List T) (hv : v.valid) :
    (v.assign_range range = (.error .bad_alloc, v) ∧ range.length > v.capacity ∧
        v._alloc.allocate range.length = false) ∨
    (∃ v2, v.assign_range range = (.ok (), v2) ∧
      (¬ (range.length > v.capacity) ∨ v._alloc.allocate range.length = true) ∧
      v2._alloc = v._alloc ∧ v2._end = range.length ∧
      v2._end_cap = (if range.length > v.capacity then range.length else v._end_cap) ∧
      v2._begin.length = v2._end_cap ∧ v2._end ≤ v2._end_cap ∧
      v2.slots = range.map some) := by
  have key := v.assign_many_cases range.length (fun i => range[i]?) (range.map some) hv
    (by simp) (fun i _ => deref_map_some range i)
  simp only [vector.assign_range]
  exact key

/-- What `resize(n, val)` does on a valid vector. -/
theorem vector.resize_cases (v : vector T) (n : Nat) (x : T) (hv : v.valid) :
    (v.resize n x = (.error .bad_alloc, v) ∧ n > v.size ∧ n > v.capacity ∧
        v._alloc.allocate (if v.capacity * 2 > n then v.capacity * 2 else n) = false) ∨
    (∃ v2, v.resize n x = (.ok (), v2) ∧
      (¬ (n > v.size ∧ n > v.capacity) ∨
        v._alloc.allocate (if v.capacity * 2 > n then v.capacity * 2 else n) = true) ∧
      v2._alloc = v._alloc ∧ v2._end = n ∧
      v2._end_cap = (if n > v.size ∧ n > v.capacity then
          (if v.capacity * 2 > n then v.capacity * 2 else n) else v._end_cap) ∧
      v2._begin.length = v2._end_cap ∧ v2._end ≤ v2._end_cap ∧
      v2.slots = v.slots.take n ++ List.replicate (n - v.size) (some x)) := by
  have h1 := hv.1
  have h2 := hv.2.1
  have hlen := v.length_slots hv
  have hsz : v.size = v._end := rfl
  by_cases hlt : n < v.size
  · right
    obtain ⟨p1, p2, p3, p4, p5⟩ := vector.pop_back_loop (T := T) (v.size - n) n v
    have hz : n - v.size = 0 := by omega
    refine ⟨{ (for_up n v.size (fun _ (u : vector T) => u.pop_back) v) with _end := n }, ?_,
      Or.inl (by omega), p1, rfl, ?_, ?_, ?_, ?_⟩
    · simp only [vector.resize, if_pos hlt]
    · rw [if_neg (by omega)]
      exact p2
    · show List.length _ = _
      simp only [for_up]
      rw [p4, p2, h1]
    · show n ≤ _
      simp only [for_up]
      rw [p2]
      omega
    · show List.take n _ = _
      rw [hz, List.replicate_zero, List.append_nil]
      simp only [for_up, vector.slots]
      apply ext_deref
      · simp only [List.length_take, p4]
        omega
      · intro j hj
        simp only [List.length_take, p4] at hj
        have hj2 : j < n := by omega
        simp only [deref_take, if_pos hj2]
        rw [p5 j (by omega), if_pos (by omega)]
  · by_cases hgt : n > v.size
    · have hm : n > v.capacity →
          v.capacity < (if v.capacity * 2 > n then v.capacity * 2 else n) := by
        intro _
        split_ifs <;> omega
      rcases v.grow_cases (n > v.capacity) _ hv hm with
        ⟨h, hc, ha⟩ | ⟨v1, h, hor, g1, g2, g3, g4, g5⟩
      · left
        simp only [vector.resize, if_neg hlt, if_pos hgt, h]
        exact ⟨trivial, hgt, hc, ha⟩
      · right
        have hcap : v.capacity = v._end_cap := rfl
        have hle : n ≤ v1._end_cap := by
          rw [g3]
          split_ifs <;> omega
        have hl : (for_up v.size n (fun i p => construct p i (some x)) v1._begin).length
            = v1._end_cap := by
          simp only [for_up, for_up_aux_copy_length, g5]
        refine ⟨{ v1 with
            _begin := for_up v.size n (fun i p => construct p i (some x)) v1._begin,
            _end := n }, ?_, ?_, g1, rfl, ?_, hl, hle, ?_⟩
        · simp only [vector.resize, if_neg hlt, if_pos hgt, h]
        · rcases hor with hor | hor
          · exact Or.inl (fun hh => hor hh.2)
          · exact Or.inr hor
        · show v1._end_cap = _
          rw [g3]
          by_cases hc : n > v.capacity
          · rw [if_pos hc, if_pos (show n > v.size ∧ n > v.capacity from ⟨hgt, hc⟩)]
          · rw [if_neg hc, if_neg (fun hh => hc hh.2)]
        · show List.take n _ = _
          have hs1 : v1._begin.take v._end = v.slots := by
            rw [← g2]; exact g4
          apply ext_deref
          · rw [List.length_take, hl, List.length_append, List.length_replicate,
              List.length_take, hlen]
            omega
          · intro j hj
            rw [List.length_take, hl] at hj
            have hj2 : j < n := by omega
            rw [deref_take, if_pos hj2]
            simp only [for_up, for_up_aux_copy_deref, g5]
            rw [deref_append, List.length_take, hlen, deref_take, deref_replicate]
            by_cases hjs : j < v._end
            · rw [if_neg (by omega), if_pos (by omega), if_pos hj2, ← hs1, deref_take,
                if_pos hjs]
            · rw [if_pos ⟨by omega, by omega, by omega⟩, if_neg (by omega),
                if_pos (by omega)]
    · right
      have he : n = v.size := by omega
      have hz : n - v.size = 0 := by omega
      refine ⟨{ v with _end := n }, ?_, Or.inl (by omega), rfl, rfl, ?_, h1, ?_, ?_⟩
      · simp only [vector.resize, if_neg hlt, if_neg hgt]
      · rw [if_neg (by omega)]
      · show n ≤ v._end_cap
        omega
      · show List.take n v._begin = _
        rw [hz, List.replicate_zero, List.append_nil, he]
        simp only [vector.slots, vector.size, List.take_take, Nat.min_self]

end assign_lemmas
section assign_and_resize
variable {T : Type}

/-- C12: on every vector of size `s`, `resize(n, x)` returns normally unless `n` exceeds
both the size and the capacity and the allocator refuses the larger block; after it has
returned, `size() == n`, the elements below `min(n, s)` are unchanged, every element at an
index in `[s, n)` is `x`, and `capacity()` is unchanged whenever `n` does not exceed the old
capacity (in particular whenever `n < s`). -/
theorem resize_spec (v : vector T) (n : Nat) (x : T) (hv : v.valid) :
    (v.resize n x).1 =
      (if n > v.size ∧ n > v.capacity ∧
          v._alloc.allocate (if v.capacity * 2 > n then v.capacity * 2 else n) = false
       then .error .bad_alloc else .ok ()) ∧
    ((v.resize n x).1 = .ok () →
      (v.resize n x).2.size = n ∧
      (∀ i, i < min n v.size → (v.resize n x).2.operator_index i = v.operator_index i) ∧
      (∀ i, v.size ≤ i → i < n → (v.resize n x).2.operator_index i = some x) ∧
      (n ≤ v.capacity → (v.resize n x).2.capacity = v.capacity) ∧
      (n < v.size → (v.resize n x).2.capacity = v.capacity) ∧
      (v.resize n x).2.to_list = v.to_list.take n ++ List.replicate (n - v.size) x ∧
      (v.resize n x).2.valid) := by
  have hle := hv.2.1
  have hsz : v.size = v._end := rfl
  have hcp : v.capacity = v._end_cap := rfl
  have hlen := v.length_slots hv
  rcases v.resize_cases n x hv with
    ⟨h, hc1, hc2, ha⟩ | ⟨v2, h, hor, _, h2, h3, h4, h5, h6⟩
  · rw [h]
    exact ⟨by rw [if_pos ⟨hc1, hc2, ha⟩], fun hok => by cases hok⟩
  · rw [h]
    dsimp only
    have hs : v2.slots = (v.to_list.take n ++ List.replicate (n - v.size) x).map some := by
      rw [h6, v.slots_eq_map hv]
      simp [List.map_take]
    refine ⟨?_, fun _ => ⟨h2, ?_, ?_, ?_, ?_, vector.to_list_of_slots hs,
      vector.valid_of_slots h4 h5 hs⟩⟩
    · rw [if_neg]
      rintro ⟨hc1, hc2, ha⟩
      rcases hor with hor | hor
      · exact hor ⟨hc1, hc2⟩
      · rw [ha] at hor; cases hor
    · intro i hi
      show deref v2._begin i = deref v._begin i
      rw [← v2.deref_slots i (by omega), ← v.deref_slots i (by omega), h6, deref_append,
        List.length_take, if_pos (by omega), deref_take, if_pos (by omega)]
    · intro i hi1 hi2
      show deref v2._begin i = some x
      rw [← v2.deref_slots i (by omega), h6, deref_append, List.length_take,
        if_neg (by omega), deref_replicate, if_pos (by omega)]
    · intro hn
      show v2._end_cap = v._end_cap
      rw [h3, if_neg (by omega)]
    · intro hn
      show v2._end_cap = v._end_cap
      rw [h3, if_neg (by omega)]

/-- Growing `sample` to six elements and shrinking it to one. -/
theorem resize_spec_witness :
    sample.valid ∧ (sample.resize 6 9).1 = .ok () ∧
      (sample.resize 6 9).2.size = 6 ∧
      (sample.resize 6 9).2.to_list = sample.to_list.take 6 ++ List.replicate (6 - sample.size) 9 ∧
      (sample.resize 1 9).2.size = 1 ∧
      (sample.resize 1 9).2.capacity = sample.capacity :=
  have h := (resize_spec sample 6 9 (by decide)).2 (by decide)
  have g := (resize_spec sample 1 9 (by decide)).2 (by decide)
  ⟨by decide, by decide, h.1, h.2.2.2.2.2.1, g.1, g.2.2.2.1 (by decide)⟩

end assign_and_resize
section size_lemmas
variable {T : Type}

/-- Outcome and sizes of `reserve(n)` on any vector. -/
theorem vector.reserve_outcome (v : vector T) (sizeof_value_type n : Nat) :
    (n > v.max_size sizeof_value_type →
      v.reserve sizeof_value_type n = (.error .length_error, v)) ∧
    (¬ n > v.max_size sizeof_value_type → v.capacity < n ∧ v._alloc.allocate n = false →
      v.reserve sizeof_value_type n = (.error .bad_alloc, v)) ∧
    (¬ n > v.max_size sizeof_value_type → ¬ (v.capacity < n ∧ v._alloc.allocate n = false) →
      (v.reserve sizeof_value_type n).1 = .ok () ∧
      (v.reserve sizeof_value_type n).2._end = v._end ∧
      (v.reserve sizeof_value_type n).2._end_cap = max n v._end_cap) := by
  refine ⟨fun h => ?_, fun h hc => ?_, fun h hc => ?_⟩
  · simp only [vector.reserve, if_pos h]
  · simp only [vector.reserve, if_neg h]
    rcases v.do_allocate_outcome n with ⟨h1, _, _⟩ | ⟨v1, _, hor, _⟩
    · exact h1
    · exfalso
      rcases hor with hor | hor
      · omega
      · rw [hc.2] at hor; cases hor
  · simp only [vector.reserve, if_neg h]
    rcases v.do_allocate_outcome n with ⟨_, h2, h3⟩ | ⟨v1, h1, _, _, h4, h5⟩
    · exact absurd ⟨h2, h3⟩ hc
    · rw [h1]
      exact ⟨rfl, h4, h5⟩

/-- Outcome and sizes of `push_back(val)` on any vector. -/
theorem vector.push_back_outcome (v : vector T) (val : value_ref T) :
    (v.size = v.capacity ∧
        v._alloc.allocate (if v.size = 0 then 1 else v.size * 2) = false →
      v.push_back val = (.error .bad_alloc, v)) ∧
    (¬ (v.size = v.capacity ∧
        v._alloc.allocate (if v.size = 0 then 1 else v.size * 2) = false) →
      (v.push_back val).1 = .ok () ∧ (v.push_back val).2._end = v._end + 1 ∧
      (v.push_back val).2._end_cap =
        (if v.size = v.capacity then (if v.size = 0 then 1 else v.size * 2)
          else v._end_cap)) := by
  have hm : v.size = v.capacity → v.capacity < (if v.size = 0 then 1 else v.size * 2) := by
    intro h
    split_ifs <;> omega
  rcases v.grow_outcome (v.size = v.capacity) _ hm with
    ⟨h, hc, ha⟩ | ⟨v1, h, hor, _, h2, h3⟩
  · refine ⟨fun _ => ?_, fun hn => absurd ⟨hc, ha⟩ hn⟩
    simp only [vector.push_back, h]
  · refine ⟨fun hn => ?_, fun _ => ?_⟩
    · exfalso
      rcases hor with hor | hor
      · exact hor hn.1
      · rw [hn.2] at hor; cases hor
    · simp only [vector.push_back, h]
      exact ⟨trivial, by rw [h2], h3⟩

/-- Outcome and sizes of `insert(position, val)` on any vector. -/
theorem vector.insert_outcome (v : vector T) (position : Nat) (val : value_ref T) :
    (v.size = v.capacity ∧
        v._alloc.allocate (if v.capacity = 0 then 1 else v.capacity * 2) = false →
      v.insert position val = (.error .bad_alloc, v)) ∧
    (¬ (v.size = v.capacity ∧
        v._alloc.allocate (if v.capacity = 0 then 1 else v.capacity * 2) = false) →
      (v.insert position val).1 = .ok (position - v.begin) ∧
      (v.insert position val).2._end = v._end + 1 ∧
      (v.insert position val).2._end_cap =
        (if v.size = v.capacity then (if v.capacity = 0 then 1 else v.capacity * 2)
          else v._end_cap)) := by
  have hm : v.size = v.capacity →
      v.capacity < (if v.capacity = 0 then 1 else v.capacity * 2) := by
    intro _
    split_ifs <;> omega
  rcases v.grow_outcome (v.size = v.capacity) _ hm with
    ⟨h, hc, ha⟩ | ⟨v1, h, hor, _, h2, h3⟩
  · refine ⟨fun _ => ?_, fun hn => absurd ⟨hc, ha⟩ hn⟩
    simp only [vector.insert, h]
  · refine ⟨fun hn => ?_, fun _ => ?_⟩
    · exfalso
      rcases hor with hor | hor
      · exact hor hn.1
      · rw [hn.2] at hor; cases hor
    · simp only [vector.insert, h]
      exact ⟨by simp [vector.begin], by rw [h2], h3⟩

/-- Outcome and sizes of `insert(position, n, val)` on any vector.  `bad_alloc` when the block
has to grow for the sum taken in `size_type` and the allocator refuses; otherwise the
capacity is the one the growth step leaves, and the call is undefined exactly when the
elements do not fit in it. -/
theorem vector.insert_fill_outcome (v : vector T) (position : Nat) (n : Nat) (val : value_ref T) :
    (n ≠ 0 ∧ (v.size + n) % size_type_modulus > v.capacity ∧ v._alloc.allocate
        (if v.capacity * 2 ≥ (v.size + n) % size_type_modulus then v.capacity * 2 else (v.size + n) % size_type_modulus) = false →
      v.insert_fill position n val = (.error .bad_alloc, v)) ∧
    (¬ (n ≠ 0 ∧ (v.size + n) % size_type_modulus > v.capacity ∧ v._alloc.allocate
        (if v.capacity * 2 ≥ (v.size + n) % size_type_modulus then v.capacity * 2 else (v.size + n) % size_type_modulus) = false) →
      (v.insert_fill position n val).2._end_cap =
        (if n ≠ 0 ∧ (v.size + n) % size_type_modulus > v.capacity then
          (if v.capacity * 2 ≥ (v.size + n) % size_type_modulus then v.capacity * 2 else (v.size + n) % size_type_modulus)
          else v._end_cap) ∧
      (n ≠ 0 ∧ v.size + n > (v.insert_fill position n val).2._end_cap →
        (v.insert_fill position n val).1 = .error .undefined ∧ (v.insert_fill position n val).2._end = v._end) ∧
      (¬ (n ≠ 0 ∧ v.size + n > (v.insert_fill position n val).2._end_cap) →
        (v.insert_fill position n val).1 = .ok () ∧ (v.insert_fill position n val).2._end = v._end + n)) := by
  by_cases h0 : n = 0
  · refine ⟨fun hn => absurd h0 hn.1, fun _ => ?_⟩
    simp only [vector.insert_fill, if_pos h0]
    rw [if_neg (fun hh => hh.1 h0)]
    exact ⟨rfl, fun hh => absurd h0 hh.1, fun _ => ⟨trivial, by omega⟩⟩
  · have hm : (v.size + n) % size_type_modulus > v.capacity →
        v.capacity < (if v.capacity * 2 ≥ (v.size + n) % size_type_modulus then v.capacity * 2 else (v.size + n) % size_type_modulus) := by
      intro _
      split_ifs <;> omega
    rcases v.grow_outcome ((v.size + n) % size_type_modulus > v.capacity) _ hm with
      ⟨h, hc, ha⟩ | ⟨v1, h, hor, _, h2, h3⟩
    · refine ⟨fun _ => ?_, fun hn => absurd ⟨h0, hc, ha⟩ hn⟩
      simp only [vector.insert_fill, if_neg h0, h]
    · refine ⟨fun hn => ?_, fun _ => ?_⟩
      · exfalso
        rcases hor with hor | hor
        · exact hor hn.2.1
        · rw [hn.2.2] at hor; cases hor
      · have h3b : v1._end_cap = (if n ≠ 0 ∧ (v.size + n) % size_type_modulus > v.capacity then
            (if v.capacity * 2 ≥ (v.size + n) % size_type_modulus then v.capacity * 2 else (v.size + n) % size_type_modulus) else v._end_cap) := by
          rw [h3]
          by_cases hc : (v.size + n) % size_type_modulus > v.capacity
          · rw [if_pos hc, if_pos (show n ≠ 0 ∧ (v.size + n) % size_type_modulus > v.capacity from ⟨h0, hc⟩)]
          · rw [if_neg hc, if_neg (fun hh => hc hh.2)]
        by_cases hfit : v.size + n > v1.capacity
        · have he : v.insert_fill position n val = (.error .undefined, v1) := by
            simp only [vector.insert_fill, if_neg h0, h, if_pos hfit]
          rw [he]
          dsimp only
          refine ⟨h3b, fun _ => ⟨rfl, h2⟩, fun hh => absurd ⟨h0, hfit⟩ hh⟩
        · have he : (v.insert_fill position n val).1 = .ok () ∧
              (v.insert_fill position n val).2._end = v1._end + n ∧
              (v.insert_fill position n val).2._end_cap = v1._end_cap := by
            simp only [vector.insert_fill, if_neg h0, h, if_neg hfit]
            exact ⟨trivial, trivial, trivial⟩
          rw [he.2.2]
          refine ⟨h3b, fun hh => absurd hh.2 hfit, fun _ => ⟨he.1, ?_⟩⟩
          rw [he.2.1, h2]

/-- Outcome and sizes of `insert(position, first, last)` on any vector.  `bad_alloc` when the block
has to grow for the sum taken in `size_type` and the allocator refuses; otherwise the
capacity is the one the growth step leaves, and the call is undefined exactly when the
elements do not fit in it. -/
theorem vector.insert_range_outcome (v : vector T) (position : Nat) (range : List T) :
    (range.length ≠ 0 ∧ (v.size + range.length) % size_type_modulus > v.capacity ∧ v._alloc.allocate
        (if v.capacity * 2 ≥ (v.size + range.length) % size_type_modulus then v.capacity * 2 else (v.size + range.length) % size_type_modulus) = false →
      v.insert_range position range = (.error .bad_alloc, v)) ∧
    (¬ (range.length ≠ 0 ∧ (v.size + range.length) % size_type_modulus > v.capacity ∧ v._alloc.allocate
        (if v.capacity * 2 ≥ (v.size + range.length) % size_type_modulus then v.capacity * 2 else (v.size + range.length) % size_type_modulus) = false) →
      (v.insert_range position range).2._end_cap =
        (if range.length ≠ 0 ∧ (v.size + range.length) % size_type_modulus > v.capacity then
          (if v.capacity * 2 ≥ (v.size + range.length) % size_type_modulus then v.capacity * 2 else (v.size + range.length) % size_type_modulus)
          else v._end_cap) ∧
      (range.length ≠ 0 ∧ v.size + range.length > (v.insert_range position range).2._end_cap →
        (v.insert_range position range).1 = .error .undefined ∧ (v.insert_range position range).2._end = v._end) ∧
      (¬ (range.length ≠ 0 ∧ v.size + range.length > (v.insert_range position range).2._end_cap) →
        (v.insert_range position range).1 = .ok () ∧ (v.insert_range position range).2._end = v._end + range.length)) := by
  by_cases h0 : range.length = 0
  · refine ⟨fun hn => absurd h0 hn.1, fun _ => ?_⟩
    simp only [vector.insert_range, if_pos h0]
    rw [if_neg (fun hh => hh.1 h0)]
    exact ⟨rfl, fun hh => absurd h0 hh.1, fun _ => ⟨trivial, by omega⟩⟩
  · have hm : (v.size + range.length) % size_type_modulus > v.capacity →
        v.capacity < (if v.capacity * 2 ≥ (v.size + range.length) % size_type_modulus then v.capacity * 2 else (v.size + range.length) % size_type_modulus) := by
      intro _
      split_ifs <;> omega
    rcases v.grow_outcome ((v.size + range.length) % size_type_modulus > v.capacity) _ hm with
      ⟨h, hc, ha⟩ | ⟨v1, h, hor, _, h2, h3⟩
    · refine ⟨fun _ => ?_, fun hn => absurd ⟨h0, hc, ha⟩ hn⟩
      simp only [vector.insert_range, if_neg h0, h]
    · refine ⟨fun hn => ?_, fun _ => ?_⟩
      · exfalso
        rcases hor with hor | hor
        · exact hor hn.2.1
        · rw [hn.2.2] at hor; cases hor
      · have h3b : v1._end_cap = (if range.length ≠ 0 ∧ (v.size + range.length) % size_type_modulus > v.capacity then
            (if v.capacity * 2 ≥ (v.size + range.length) % size_type_modulus then v.capacity * 2 else (v.size + range.length) % size_type_modulus) else v._end_cap) := by
          rw [h3]
          by_cases hc : (v.size + range.length) % size_type_modulus > v.capacity
          · rw [if_pos hc, if_pos (show range.length ≠ 0 ∧ (v.size + range.length) % size_type_modulus > v.capacity from ⟨h0, hc⟩)]
          · rw [if_neg hc, if_neg (fun hh => hc hh.2)]
        by_cases hfit : v.size + range.length > v1.capacity
        · have he : v.insert_range position range = (.error .undefined, v1) := by
            simp only [vector.insert_range, if_neg h0, h, if_pos hfit]
          rw [he]
          dsimp only
          refine ⟨h3b, fun _ => ⟨rfl, h2⟩, fun hh => absurd ⟨h0, hfit⟩ hh⟩
        · have he : (v.insert_range position range).1 = .ok () ∧
              (v.insert_range position range).2._end = v1._end + range.length ∧
              (v.insert_range position range).2._end_cap = v1._end_cap := by
            simp only [vector.insert_range, if_neg h0, h, if_neg hfit]
            exact ⟨trivial, trivial, trivial⟩
          rw [he.2.2]
          refine ⟨h3b, fun hh => absurd hh.2 hfit, fun _ => ⟨he.1, ?_⟩⟩
          rw [he.2.1, h2]

/-- Outcome and sizes of `resize(n, val)` on any vector. -/
theorem vector.resize_outcome (v : vector T) (n : Nat) (x : T) :
    (n > v.size ∧ n > v.capacity ∧ v._alloc.allocate
        (if v.capacity * 2 > n then v.capacity * 2 else n) = false →
      v.resize n x = (.error .bad_alloc, v)) ∧
    (¬ (n > v.size ∧ n > v.capacity ∧ v._alloc.allocate
        (if v.capacity * 2 > n then v.capacity * 2 else n) = false) →
      (v.resize n x).1 = .ok () ∧ (v.resize n x).2._end = n ∧
      (v.resize n x).2._end_cap =
        (if n > v.size ∧ n > v.capacity then
          (if v.capacity * 2 > n then v.capacity * 2 else n) else v._end_cap)) := by
  by_cases hlt : n < v.size
  · refine ⟨fun hn => by omega, fun _ => ?_⟩
    obtain ⟨_, p2, _⟩ := vector.pop_back_loop (T := T) (v.size - n) n v
    simp only [vector.resize, if_pos hlt, for_up]
    rw [if_neg (by omega)]
    exact ⟨trivial, trivial, p2⟩
  · by_cases hgt : n > v.size
    · have hm : n > v.capacity →
          v.capacity < (if v.capacity * 2 > n then v.capacity * 2 else n) := by
        intro _
        split_ifs <;> omega
      rcases v.grow_outcome (n > v.capacity) _ hm with
        ⟨h, hc, ha⟩ | ⟨v1, h, hor, _, h2, h3⟩
      · refine ⟨fun _ => ?_, fun hn => absurd ⟨hgt, hc, ha⟩ hn⟩
        simp only [vector.resize, if_neg hlt, if_pos hgt, h]
      · refine ⟨fun hn => ?_, fun _ => ?_⟩
        · exfalso
          rcases hor with hor | hor
          · exact hor hn.2.1
          · rw [hn.2.2] at hor; cases hor
        · simp only [vector.resize, if_neg hlt, if_pos hgt, h]
          refine ⟨trivial, trivial, ?_⟩
          rw [h3]
          by_cases hc : n > v.capacity
          · rw [if_pos hc, if_pos (show n > v.size ∧ n > v.capacity from ⟨hgt, hc⟩)]
          · rw [if_neg hc, if_neg (fun hh => hc hh.2)]
    · refine ⟨fun hn => absurd hn.1 hgt, fun _ => ?_⟩
      simp only [vector.resize, if_neg hlt, if_neg hgt]
      rw [if_neg (fun hh => hgt hh.1)]
      exact ⟨trivial, trivial, rfl⟩

/-- Outcome and sizes of `assign(n, val)` on any vector. -/
theorem vector.assign_fill_outcome (v : vector T) (n : Nat) (val : value_ref T) :
    (n > v.capacity ∧ v._alloc.allocate n = false →
      v.assign_fill n val = (.error .bad_alloc, v)) ∧
    (¬ (n > v.capacity ∧ v._alloc.allocate n = false) →
      (v.assign_fill n val).1 = .ok () ∧ (v.assign_fill n val).2._end = n ∧
      (v.assign_fill n val).2._end_cap = (if n > v.capacity then n else v._end_cap)) := by
  rcases v.grow_outcome (n > v.capacity) n (fun h => h) with
    ⟨h, hc, ha⟩ | ⟨v1, h, hor, _, h2, h3⟩
  · refine ⟨fun _ => ?_, fun hn => absurd ⟨hc, ha⟩ hn⟩
    simp only [vector.assign_fill, h]
  · refine ⟨fun hn => ?_, fun _ => ?_⟩
    · exfalso
      rcases hor with hor | hor
      · exact hor hn.1
      · rw [hn.2] at hor; cases hor
    · simp only [vector.assign_fill, h]
      exact ⟨trivial, trivial, h3⟩

/-- Outcome and sizes of `assign(first, last)` on any vector. -/
theorem vector.assign_range_outcome (v : vector T) (range : List T) :
    (range.length > v.capacity ∧ v._alloc.allocate range.length = false →
      v.assign_range range = (.error .bad_alloc, v)) ∧
    (¬ (range.length > v.capacity ∧ v._alloc.allocate range.length = false) →
      (v.assign_range range).1 = .ok () ∧ (v.assign_range range).2._end = range.length ∧
      (v.assign_range range).2._end_cap =
        (if range.length > v.capacity then range.length else v._end_cap)) := by
  rcases v.grow_outcome (range.length > v.capacity) range.length (fun h => h) with
    ⟨h, hc, ha⟩ | ⟨v1, h, hor, _, h2, h3⟩
  · refine ⟨fun _ => ?_, fun hn => absurd ⟨hc, ha⟩ hn⟩
    simp only [vector.assign_range, h]
  · refine ⟨fun hn => ?_, fun _ => ?_⟩
    · exfalso
      rcases hor with hor | hor
      · exact hor hn.1
      · rw [hn.2] at hor; cases hor
    · simp only [vector.assign_range, h]
      exact ⟨trivial, trivial, h3⟩

end size_lemmas
section growth_and_failure
variable {T : Type}

/-- C18: atomicity under allocation failure.  For `reserve`, `push_back`, `resize`, the
three `insert` overloads and the two `assign` overloads: when the call has to grow the block
and the allocator refuses the request, the call throws `bad_alloc` and the vector is the one
it was before the call; and whenever one of these calls throws `bad_alloc`, the vector
(hence its `size()`, `capacity()` and element sequence) is unchanged.  The two multi-element
`insert` overloads make a request when the sum of `size()` and the count, taken in
`size_type`, exceeds the capacity. -/
theorem allocation_failure_atomic (v : vector T) (sizeof_value_type n position : Nat) (x : T)
    (val : value_ref T) (range : List T) :
    ((n ≤ v.max_size sizeof_value_type ∧ v.capacity < n ∧ v._alloc.allocate n = false →
        v.reserve sizeof_value_type n = (.error .bad_alloc, v)) ∧
      ((v.reserve sizeof_value_type n).1 = .error .bad_alloc →
        (v.reserve sizeof_value_type n).2 = v)) ∧
    ((v.size = v.capacity ∧
          v._alloc.allocate (if v.size = 0 then 1 else v.size * 2) = false →
        v.push_back val = (.error .bad_alloc, v)) ∧
      ((v.push_back val).1 = .error .bad_alloc → (v.push_back val).2 = v)) ∧
    ((n > v.size ∧ n > v.capacity ∧ v._alloc.allocate
          (if v.capacity * 2 > n then v.capacity * 2 else n) = false →
        v.resize n x = (.error .bad_alloc, v)) ∧
      ((v.resize n x).1 = .error .bad_alloc → (v.resize n x).2 = v)) ∧
    ((v.size = v.capacity ∧
          v._alloc.allocate (if v.capacity = 0 then 1 else v.capacity * 2) = false →
        v.insert position val = (.error .bad_alloc, v)) ∧
      ((v.insert position val).1 = .error .bad_alloc → (v.insert position val).2 = v)) ∧
    ((n ≠ 0 ∧ (v.size + n) % size_type_modulus > v.capacity ∧ v._alloc.allocate
          (if v.capacity * 2 ≥ (v.size + n) % size_type_modulus then v.capacity * 2 else (v.size + n) % size_type_modulus) = false →
        v.insert_fill position n val = (.error .bad_alloc, v)) ∧
      ((v.insert_fill position n val).1 = .error .bad_alloc →
        (v.insert_fill position n val).2 = v)) ∧
    ((range.length ≠ 0 ∧ (v.size + range.length) % size_type_modulus > v.capacity ∧ v._alloc.allocate
          (if v.capacity * 2 ≥ (v.size + range.length) % size_type_modulus then v.capacity * 2 else (v.size + range.length) % size_type_modulus) = false →
        v.insert_range position range = (.error .bad_alloc, v)) ∧
      ((v.insert_range position range).1 = .error .bad_alloc →
        (v.insert_range position range).2 = v)) ∧
    ((n > v.capacity ∧ v._alloc.allocate n = false →
        v.assign_fill n val = (.error .bad_alloc, v)) ∧
      ((v.assign_fill n val).1 = .error .bad_alloc → (v.assign_fill n val).2 = v)) ∧
    ((range.length > v.capacity ∧ v._alloc.allocate range.length = false →
        v.assign_range range = (.error .bad_alloc, v)) ∧
      ((v.assign_range range).1 = .error .bad_alloc → (v.assign_range range).2 = v)) := by
  refine ⟨⟨fun h => ?_, fun h => ?_⟩, ⟨(v.push_back_outcome val).1, fun h => ?_⟩,
    ⟨(v.resize_outcome n x).1, fun h => ?_⟩, ⟨(v.insert_outcome position val).1, fun h => ?_⟩,
    ⟨(v.insert_fill_outcome position n val).1, fun h => ?_⟩,
    ⟨(v.insert_range_outcome position range).1, fun h => ?_⟩,
    ⟨(v.assign_fill_outcome n val).1, fun h => ?_⟩,
    ⟨(v.assign_range_outcome range).1, fun h => ?_⟩⟩
  · exact (v.reserve_outcome sizeof_value_type n).2.1 (by omega) h.2
  · obtain ⟨o1, o2, o3⟩ := v.reserve_outcome sizeof_value_type n
    by_cases hm : n > v.max_size sizeof_value_type
    · rw [o1 hm]
    · by_cases hc : v.capacity < n ∧ v._alloc.allocate n = false
      · rw [o2 hm hc]
      · rw [(o3 hm hc).1] at h; cases h
  · obtain ⟨o1, o2⟩ := v.push_back_outcome val
    by_cases hc : v.size = v.capacity ∧
        v._alloc.allocate (if v.size = 0 then 1 else v.size * 2) = false
    · rw [o1 hc]
    · rw [(o2 hc).1] at h; cases h
  · obtain ⟨o1, o2⟩ := v.resize_outcome n x
    by_cases hc : n > v.size ∧ n > v.capacity ∧ v._alloc.allocate
        (if v.capacity * 2 > n then v.capacity * 2 else n) = false
    · rw [o1 hc]
    · rw [(o2 hc).1] at h; cases h
  · obtain ⟨o1, o2⟩ := v.insert_outcome position val
    by_cases hc : v.size = v.capacity ∧
        v._alloc.allocate (if v.capacity = 0 then 1 else v.capacity * 2) = false
    · rw [o1 hc]
    · rw [(o2 hc).1] at h; cases h
  · obtain ⟨o1, o2⟩ := v.insert_fill_outcome position n val
    by_cases hc : n ≠ 0 ∧ (v.size + n) % size_type_modulus > v.capacity ∧ v._alloc.allocate
        (if v.capacity * 2 ≥ (v.size + n) % size_type_modulus then v.capacity * 2 else (v.size + n) % size_type_modulus) = false
    · rw [o1 hc]
    · obtain ⟨_, hu, hk⟩ := o2 hc
      by_cases hfit : n ≠ 0 ∧ v.size + n > (v.insert_fill position n val).2._end_cap
      · rw [(hu hfit).1] at h; cases h
      · rw [(hk hfit).1] at h; cases h
  · obtain ⟨o1, o2⟩ := v.insert_range_outcome position range
    by_cases hc : range.length ≠ 0 ∧ (v.size + range.length) % size_type_modulus > v.capacity ∧ v._alloc.allocate
        (if v.capacity * 2 ≥ (v.size + range.length) % size_type_modulus then v.capacity * 2 else (v.size + range.length) % size_type_modulus) = false
    · rw [o1 hc]
    · obtain ⟨_, hu, hk⟩ := o2 hc
      by_cases hfit : range.length ≠ 0 ∧
          v.size + range.length > (v.insert_range position range).2._end_cap
      · rw [(hu hfit).1] at h; cases h
      · rw [(hk hfit).1] at h; cases h
  · obtain ⟨o1, o2⟩ := v.assign_fill_outcome n val
    by_cases hc : n > v.capacity ∧ v._alloc.allocate n = false
    · rw [o1 hc]
    · rw [(o2 hc).1] at h; cases h
  · obtain ⟨o1, o2⟩ := v.assign_range_outcome range
    by_cases hc : range.length > v.capacity ∧ v._alloc.allocate range.length = false
    · rw [o1 hc]
    · rw [(o2 hc).1] at h; cases h

/-- On `sample_full`, whose allocator refuses every request, `push_back`, `insert`,
`insert` of three elements, `reserve` and `assign` throw `bad_alloc` and leave the vector as
it was. -/
theorem allocation_failure_atomic_witness :
    (sample_full.size = sample_full.capacity ∧ sample_full._alloc.allocate
        (if sample_full.size = 0 then 1 else sample_full.size * 2) = false) ∧
      sample_full.push_back (.element 0) = (.error .bad_alloc, sample_full) ∧
      sample_full.insert 1 (.element 0) = (.error .bad_alloc, sample_full) ∧
      sample_full.insert_fill 1 5 (.element 0) = (.error .bad_alloc, sample_full) ∧
      sample_full.reserve 4 5 = (.error .bad_alloc, sample_full) ∧
      (sample_full.assign_fill 5 (.element 0)).1 = .error .bad_alloc ∧
      (sample_full.assign_fill 5 (.element 0)).2 = sample_full :=
  have h := allocation_failure_atomic sample_full 4 5 1 3 (.element 0) [7, 8, 9]
  ⟨by decide, h.2.1.1 (by decide), h.2.2.2.1.1 (by decide), h.2.2.2.2.1.1 (by decide),
    h.1.1 (by decide), by decide, h.2.2.2.2.2.2.1.2 (by decide)⟩

end growth_and_failure
section construction_lemmas
variable {T : Type}

/-- The construction loop run `n` times on a fresh block of `m ≥ n` slots: sizes and
slots of the vector built. -/
theorem vector.construct_loop_result (al : allocator) (m n : Nat) (f : Nat → Option T)
    (hnm : n ≤ m) :
    (for_up 0 n (vector.construct_at_end f)
        { _alloc := al, _begin := List.replicate m none, _end := 0, _end_cap := m })._alloc
      = al ∧
    (for_up 0 n (vector.construct_at_end f)
        { _alloc := al, _begin := List.replicate m none, _end := 0, _end_cap := m })._end
      = n ∧
    (for_up 0 n (vector.construct_at_end f)
        { _alloc := al, _begin := List.replicate m none, _end := 0, _end_cap := m })._end_cap
      = m ∧
    (for_up 0 n (vector.construct_at_end f)
        { _alloc := al, _begin := List.replicate m none, _end := 0,
          _end_cap := m })._begin.length = m ∧
    ∀ L : List (Option T), L.length = n → (∀ i, i < n → deref L i = f i) →
      (for_up 0 n (vector.construct_at_end f)
        { _alloc := al, _begin := List.replicate m none, _end := 0, _end_cap := m }).slots
        = L := by
  obtain ⟨ha, hc, he, hl, hd⟩ := vector.construct_at_end_loop f (n - 0) 0
    { _alloc := al, _begin := List.replicate m none, _end := 0, _end_cap := m }
  dsimp only at ha hc he hl hd
  simp only [List.length_replicate] at hl hd
  have he2 : (for_up_aux (vector.construct_at_end f) (n - 0) 0
      { _alloc := al, _begin := List.replicate m none, _end := 0, _end_cap := m })._end
      = n := by
    rw [he]; omega
  simp only [for_up]
  refine ⟨ha, he2, hc, hl, fun L hL hf => ?_⟩
  simp only [vector.slots]
  rw [he2]
  apply ext_deref
  · rw [List.length_take, hl, hL]
    omega
  · intro j hj
    rw [List.length_take, hl] at hj
    have hj2 : j < n := by omega
    rw [deref_take, if_pos hj2, hd j, if_pos ⟨by omega, by omega, by omega⟩,
      hf _ hj2]
    congr 1
    omega

/-- The sizes of the vector built by the construction loop, whatever the counts. -/
theorem vector.construct_loop_sizes (al : allocator) (m n : Nat) (f : Nat → Option T) :
    (for_up 0 n (vector.construct_at_end f)
        { _alloc := al, _begin := List.replicate m none, _end := 0, _end_cap := m })._end
      = n ∧
    (for_up 0 n (vector.construct_at_end f)
        { _alloc := al, _begin := List.replicate m none, _end := 0, _end_cap := m })._end_cap
      = m := by
  obtain ⟨_, hc, he, _⟩ := vector.construct_at_end_loop f (n - 0) 0
    { _alloc := al, _begin := List.replicate m none, _end := 0, _end_cap := m }
  dsimp only at hc he
  simp only [for_up]
  refine ⟨?_, hc⟩
  rw [he]
  omega

/-- What the copy constructor builds from a valid vector. -/
theorem vector.vector_copy_cases (x : vector T) (hx : x.valid) :
    (x._alloc.allocate x.capacity = false ∧ vector.vector_copy x = .error .bad_alloc) ∨
    (x._alloc.allocate x.capacity = true ∧
      ∃ c, vector.vector_copy x = .ok c ∧ c._alloc = x._alloc ∧ c._end = x._end ∧
        c._end_cap = x._end_cap ∧ c._begin.length = c._end_cap ∧ c.slots = x.slots) := by
  have h1 := hx.1
  have h2 := hx.2.1
  by_cases ha : x._alloc.allocate x.capacity = true
  · right
    obtain ⟨r1, r2, r3, r4, r5⟩ := vector.construct_loop_result x._alloc x.capacity x.size
      (fun i => deref x._begin (x.begin + i)) h2
    refine ⟨ha, _, by simp only [vector.vector_copy, if_pos ha], r1, r2, r3, ?_, ?_⟩
    · rw [r4, r3]
    · refine r5 x.slots (x.length_slots hx) (fun i hi => ?_)
      rw [x.deref_slots i hi]
      simp [vector.begin]
  · left
    simp only [Bool.not_eq_true] at ha
    exact ⟨ha, by simp [vector.vector_copy, ha]⟩

/-- What `operator=` does when the right-hand side is another, valid, vector. -/
theorem vector.operator_assign_cases (v x : vector T) (hx : x.valid) :
    (x._alloc.allocate x.size = false ∧
      v.operator_assign (.other x) = (.error .bad_alloc, { v.clear with _alloc := x._alloc })) ∨
    (x._alloc.allocate x.size = true ∧
      ∃ v2, v.operator_assign (.other x) = (.ok (), v2) ∧ v2._alloc = x._alloc ∧
        v2._end = x._end ∧ v2._end_cap = x._end ∧ v2._begin.length = v2._end_cap ∧
        v2.slots = x.slots) := by
  by_cases ha : x._alloc.allocate x.size = true
  · right
    obtain ⟨r1, r2, r3, r4, r5⟩ := vector.construct_loop_result x._alloc x.size x.size
      (fun i => deref x._begin (x.begin + i)) (Nat.le_refl _)
    refine ⟨ha, _, by simp only [vector.operator_assign, if_pos ha], r1, r2, r3, ?_, ?_⟩
    · rw [r4, r3]
    · refine r5 x.slots (x.length_slots hx) (fun i hi => ?_)
      rw [x.deref_slots i hi]
      simp [vector.begin]
  · left
    simp only [Bool.not_eq_true] at ha
    exact ⟨ha, by simp [vector.operator_assign, ha]⟩

end construction_lemmas
section equality_lemmas
variable {T : Type}

theorem equal_iff [BEq T] (l1 : List T) :
    ∀ l2 : List T, equal l1 l2 = true ↔
      ∀ i, i < l1.length → ∃ p q, l1[i]? = some p ∧ l2[i]? = some q ∧ (p == q) = true := by
  induction l1 with
  | nil =>
    intro l2
    simp [equal]
  | cons a l1 ih =>
    intro l2
    cases l2 with
    | nil =>
      simp only [equal]
      constructor
      · intro h; cases h
      · intro h
        obtain ⟨p, q, _, hq, _⟩ := h 0 (by simp)
        simp at hq
    | cons b l2 =>
      simp only [equal]
      constructor
      · intro h i hi
        by_cases hab : (a == b) = true
        · rw [if_pos hab] at h
          cases i with
          | zero => exact ⟨a, b, by simp, by simp, hab⟩
          | succ i =>
            obtain ⟨p, q, hp, hq, hpq⟩ := (ih l2).1 h i (by simpa using hi)
            exact ⟨p, q, by simpa using hp, by simpa using hq, hpq⟩
        · rw [if_neg hab] at h
          cases h
      · intro h
        obtain ⟨p, q, hp, hq, hpq⟩ := h 0 (by simp)
        simp only [List.getElem?_cons_zero, Option.some.injEq] at hp hq
        subst hp hq
        rw [if_pos hpq]
        refine (ih l2).2 (fun i hi => ?_)
        obtain ⟨p, q, hp, hq, hpq⟩ := h (i + 1) (by simpa using hi)
        exact ⟨p, q, by simpa using hp, by simpa using hq, hpq⟩

theorem equal_self [BEq T] [ReflBEq T] (l : List T) : equal l l = true := by
  induction l with
  | nil => rfl
  | cons a l ih => simp [equal, ih]

theorem operator_eq_of_to_list_eq [BEq T] [ReflBEq T] (a b : vector T) (ha : a.valid)
    (hb : b.valid) (h : a.to_list = b.to_list) : operator_eq a b = true := by
  have hs : a.size = b.size := by
    rw [← a.length_to_list ha, ← b.length_to_list hb, h]
  simp only [operator_eq, vector.range, hs, h, ne_eq, not_true_eq_false, if_false, equal_self]

theorem operator_eq_iff [BEq T] (a b : vector T) (ha : a.valid) (hb : b.valid) :
    operator_eq a b = true ↔
      a.size = b.size ∧ ∀ i, i < a.size → ∃ p q, a.operator_index i = some p ∧
        b.operator_index i = some q ∧ (p == q) = true := by
  have la := a.length_to_list ha
  have lb := b.length_to_list hb
  constructor
  · intro h
    by_cases hs : a.size = b.size
    · simp only [operator_eq, vector.range, hs, ne_eq, not_true_eq_false, if_false] at h
      refine ⟨hs, fun i hi => ?_⟩
      obtain ⟨p, q, hp, hq, hpq⟩ := (equal_iff _ _).1 h i (by omega)
      exact ⟨p, q, by rw [a.operator_index_eq ha i hi, hp],
        by rw [b.operator_index_eq hb i (by omega), hq], hpq⟩
    · simp [operator_eq, hs] at h
  · rintro ⟨hs, h⟩
    simp only [operator_eq, vector.range, hs, ne_eq, not_true_eq_false, if_false]
    refine (equal_iff _ _).2 (fun i hi => ?_)
    obtain ⟨p, q, hp, hq, hpq⟩ := h i (by omega)
    exact ⟨p, q, by rw [← a.operator_index_eq ha i (by omega), hp],
      by rw [← b.operator_index_eq hb i (by omega), hq], hpq⟩

end equality_lemmas

section object_lemmas
variable {T : Type}

/-- After a member call on `o`, the object it has become holds the vector the call left. -/
theorem vector_object.load_store (o : vector_object) (m : memory T) (w : vector T) :
    (o.store m w).2.load (o.store m w).1 = w := by
  unfold vector_object.store
  split_ifs with h
  · simp only [vector_object.load, Function.update_same, ← h]
  · simp only [vector_object.load, Function.update_same]

/-- A member call on `o` leaves every object with another block as it was. -/
theorem vector_object.load_store_other (o x : vector_object) (m : memory T) (w : vector T)
    (hne : x._begin ≠ o._begin) (hb : x._begin < m.brk) :
    x.load (o.store m w).1 = x.load m := by
  unfold vector_object.store
  split_ifs with h
  · simp only [vector_object.load, Function.update_noteq hne]
  · simp only [vector_object.load, Function.update_noteq (Nat.ne_of_lt hb),
      Function.update_noteq hne]

end object_lemmas

section copy_claims
variable {T : Type}

/-- C14: the copy constructor applied to a vector `x` of a memory throws `bad_alloc` when
the allocator refuses a block of `x.capacity()` slots and otherwise builds a vector `c` with
`c == x` (same size, elements pairwise equal in order) and `c.capacity() == x.capacity()`,
`x` being unchanged.  The copy has a block of its own: `c._begin` is not `x._begin`, and
`push_back`, `erase` and the assignment to an element, called on `c`, act on `c` as the
members do and leave `x` as it was.  They do change `c`: `push_back` and `erase` on `c` give
the sequence of `x` extended or shortened, and `c[n] = y` makes `c[n]` equal to `y`. -/
theorem copy_constructor_spec [BEq T] [ReflBEq T] (m : memory T) (x : vector_object)
    (hx : (x.load m).valid) (hb : x._begin < m.brk) :
    ((x.load m)._alloc.allocate (x.load m).capacity = false →
      x.vector_copy m = .error .bad_alloc) ∧
    ((x.load m)._alloc.allocate (x.load m).capacity = true →
      ∃ m1 c, x.vector_copy m = .ok (m1, c)) ∧
    (∀ m1 c, x.vector_copy m = .ok (m1, c) →
      (operator_eq (c.load m1) (x.load m1) = true ∧ (c.load m1).size = (x.load m).size ∧
        (∀ i, i < (x.load m).size →
          (c.load m1).operator_index i = (x.load m).operator_index i) ∧
        (c.load m1).to_list = (x.load m).to_list ∧
        (c.load m1).capacity = (x.load m).capacity ∧ (c.load m1).valid) ∧
      (c._begin ≠ x._begin ∧ x.load m1 = x.load m) ∧
      (∀ val,
        (c.push_back m1 val).2.2.load (c.push_back m1 val).2.1
          = ((c.load m1).push_back val).2 ∧
        x.load (c.push_back m1 val).2.1 = x.load m) ∧
      (∀ position,
        (c.erase m1 position).2.2.load (c.erase m1 position).2.1
          = ((c.load m1).erase position).2 ∧
        x.load (c.erase m1 position).2.1 = x.load m) ∧
      (∀ n val,
        (c.operator_index_assign m1 n val).2.load (c.operator_index_assign m1 n val).1
          = (c.load m1).operator_index_assign n val ∧
        x.load (c.operator_index_assign m1 n val).1 = x.load m) ∧
      (∀ y, ((c.load m1).push_back (.outside y)).1 = .ok () →
        ((c.load m1).push_back (.outside y)).2.to_list = (x.load m).to_list ++ [y] ∧
        ((c.load m1).push_back (.outside y)).2.size = (x.load m).size + 1) ∧
      (∀ d, d < (x.load m).size →
        ((c.load m1).erase ((c.load m1).begin + d)).2.to_list
          = (x.load m).to_list.eraseIdx d ∧
        ((c.load m1).erase ((c.load m1).begin + d)).2.size + 1 = (x.load m).size) ∧
      (∀ n y, n < (x.load m).size →
        ((c.load m1).operator_index_assign n y).operator_index n = some y)) := by
  rcases vector.vector_copy_cases (x.load m) hx with
    ⟨ha, he⟩ | ⟨ha, c0, hc, _, c2, c3, c4, c5⟩
  · have hcopy : x.vector_copy m = .error .bad_alloc := by
      simp only [vector_object.vector_copy, he]
    refine ⟨fun _ => hcopy, fun h => ?_, fun m1 c hc => ?_⟩
    · rw [ha] at h; cases h
    · rw [hcopy] at hc; cases hc
  · have hcopy : x.vector_copy m = .ok
        ({ block := Function.update m.block m.brk c0._begin, brk := m.brk + 1 },
         { _alloc := c0._alloc, _begin := m.brk, _end := c0._end, _end_cap := c0._end_cap }) := by
      simp only [vector_object.vector_copy, hc]
    refine ⟨fun h => ?_, fun _ => ⟨_, _, hcopy⟩, fun m1 c hc' => ?_⟩
    · rw [ha] at h; cases h
    · rw [hcopy] at hc'
      have hpair := Except.ok.inj hc'
      have hm1 : m1 = { block := Function.update m.block m.brk c0._begin, brk := m.brk + 1 } :=
        (Prod.mk.inj hpair).1.symm
      have hcc : c =
          { _alloc := c0._alloc, _begin := m.brk, _end := c0._end, _end_cap := c0._end_cap } :=
        (Prod.mk.inj hpair).2.symm
      have hne : x._begin ≠ c._begin := by rw [hcc]; exact Nat.ne_of_lt hb
      have hb1 : x._begin < m1.brk := by rw [hm1]; exact Nat.lt_succ_of_lt hb
      have hload : c.load m1 = c0 := by
        rw [hcc, hm1]
        simp only [vector_object.load, Function.update_same]
      have hx1 : x.load m1 = x.load m := by
        rw [hm1]
        simp only [vector_object.load, Function.update_noteq (Nat.ne_of_lt hb)]
      rw [hload, hx1]
      have hle := hx.2.1
      have hs : c0.slots = (x.load m).to_list.map some := c5.trans ((x.load m).slots_eq_map hx)
      have hv : c0.valid := vector.valid_of_slots c4 (by omega) hs
      have hl : c0.to_list = (x.load m).to_list := vector.to_list_of_slots hs
      refine ⟨⟨operator_eq_of_to_list_eq c0 (x.load m) hv hx hl, c2, ?_, hl, c3, hv⟩,
        ⟨fun h => hne h.symm, rfl⟩, fun val => ⟨?_, ?_⟩, fun position => ⟨?_, ?_⟩,
        fun n val => ⟨?_, ?_⟩, ?_, ?_, ?_⟩
      · intro i hi
        show deref c0._begin i = deref (x.load m)._begin i
        rw [← c0.deref_slots i (by rw [c2]; exact hi), ← (x.load m).deref_slots i hi, c5]
      · simp only [vector_object.push_back, hload]
        exact vector_object.load_store c m1 _
      · simp only [vector_object.push_back]
        rw [vector_object.load_store_other c x m1 _ hne hb1, hx1]
      · simp only [vector_object.erase, hload]
        exact vector_object.load_store c m1 _
      · simp only [vector_object.erase]
        rw [vector_object.load_store_other c x m1 _ hne hb1, hx1]
      · simp only [vector_object.operator_index_assign, hload]
        exact vector_object.load_store c m1 _
      · simp only [vector_object.operator_index_assign]
        rw [vector_object.load_store_other c x m1 _ hne hb1, hx1]
      · intro y hok
        rcases c0.push_back_outside_cases y hv with ⟨h, _, _⟩ | ⟨v2, h, _, _, h2, _, hs2, _⟩
        · rw [h] at hok; cases hok
        · rw [h]
          dsimp only
          refine ⟨vector.to_list_of_slots (by rw [hs2, hs]; simp), ?_⟩
          simp only [vector.size, h2, c2]
      · intro d hd
        have hb : c0.begin + d = d := by simp [vector.begin]
        rw [hb]
        obtain ⟨v1, he, _, e2, _, _, e5⟩ := c0.erase_cases d hv (by rw [c2]; exact hd)
        rw [he]
        dsimp only
        refine ⟨vector.to_list_of_slots ?_, ?_⟩
        · rw [e5, hs, List.eraseIdx_eq_take_drop_succ]
          simp [List.map_take, List.map_drop]
        · simp only [vector.size, e2, c2]
          simp only [vector.size] at hd
          omega
      · intro n y hn
        show deref (c0._begin.set n (some y)) n = some y
        have hlen : n < c0._begin.length := by
          simp only [vector.size] at hn
          rw [c4, c3]
          omega
        simp [deref, hlen]

/-- Copying `sample_object` in `sample_memory`: the copy is `==` to it, has its four slots
in another block, and an assignment to its first element leaves `sample_object` as it
was. -/
theorem copy_constructor_spec_witness :
    (sample_object.load sample_memory).valid ∧ sample_object._begin < sample_memory.brk ∧
      ∃ m1 c, sample_object.vector_copy sample_memory = .ok (m1, c) ∧
        operator_eq (c.load m1) (sample_object.load m1) = true ∧
        (c.load m1).to_list = (sample_object.load sample_memory).to_list ∧
        c._begin ≠ sample_object._begin ∧
        sample_object.load (c.operator_index_assign m1 0 99).1
          = sample_object.load sample_memory :=
  have h := copy_constructor_spec sample_memory sample_object (by decide) (by decide)
  ⟨by decide, by decide,
    (h.2.1 rfl).elim (fun m1 hm1 => hm1.elim (fun c hc =>
      ⟨m1, c, hc, (h.2.2 m1 c hc).1.1, (h.2.2 m1 c hc).1.2.2.2.1, (h.2.2 m1 c hc).2.1.1,
        ((h.2.2 m1 c hc).2.2.2.2.1 0 99).2⟩))⟩

/-- C15: for distinct vectors `a` and `x`, `a = x` throws `bad_alloc` when the allocator of
`x` refuses a block of `x.size()` slots and otherwise leaves `a.size() == x.size()`, every
element of `a` equal to the corresponding element of `x` in order (so `a == x`), and
`a.capacity() == x.size()` whatever the prior capacity of `a`; the self-assignment `a = a`
leaves `a` as it was. -/
theorem operator_assign_spec [BEq T] [ReflBEq T] (a x : vector T) (hx : x.valid) :
    (a.operator_assign (.other x)).1 =
      (if x._alloc.allocate x.size = false then .error .bad_alloc else .ok ()) ∧
    ((a.operator_assign (.other x)).1 = .ok () →
      (a.operator_assign (.other x)).2.size = x.size ∧
      (∀ i, i < x.size →
        (a.operator_assign (.other x)).2.operator_index i = x.operator_index i) ∧
      (a.operator_assign (.other x)).2.to_list = x.to_list ∧
      operator_eq (a.operator_assign (.other x)).2 x = true ∧
      (a.operator_assign (.other x)).2.capacity = x.size ∧
      (a.operator_assign (.other x)).2.valid) ∧
    (a.operator_assign .self = (.ok (), a) ∧
      (a.operator_assign .self).2.size = a.size ∧
      (a.operator_assign .self).2.capacity = a.capacity ∧
      (a.operator_assign .self).2.to_list = a.to_list) := by
  refine ⟨?_, ?_, ⟨rfl, rfl, rfl, rfl⟩⟩
  · rcases a.operator_assign_cases x hx with ⟨ha, he⟩ | ⟨ha, v2, he, _⟩
    · rw [he, if_pos ha]
    · rw [he, if_neg (by rw [ha]; simp)]
  · intro hok
    rcases a.operator_assign_cases x hx with ⟨ha, he⟩ | ⟨ha, v2, he, _, c2, c3, c4, c5⟩
    · rw [he] at hok; cases hok
    · rw [he]
      dsimp only
      have hs : v2.slots = x.to_list.map some := c5.trans (x.slots_eq_map hx)
      have hv : v2.valid := vector.valid_of_slots c4 (by omega) hs
      have hl : v2.to_list = x.to_list := vector.to_list_of_slots hs
      refine ⟨c2, ?_, hl, operator_eq_of_to_list_eq v2 x hv hx hl, c3, hv⟩
      intro i hi
      show deref v2._begin i = deref x._begin i
      rw [← v2.deref_slots i (by rw [c2]; exact hi), ← x.deref_slots i hi, c5]

/-- Assigning `sample` to `sample_full`: three elements in a block of three slots. -/
theorem operator_assign_spec_witness :
    sample.valid ∧ (sample_full.operator_assign (.other sample)).1 = .ok () ∧
      (sample_full.operator_assign (.other sample)).2.size = sample.size ∧
      (sample_full.operator_assign (.other sample)).2.to_list = sample.to_list ∧
      (sample_full.operator_assign (.other sample)).2.capacity = 3 ∧
      sample_full.operator_assign .self = (.ok (), sample_full) :=
  have h := operator_assign_spec sample_full sample (by decide)
  ⟨by decide, by decide, (h.2.1 (by decide)).1, (h.2.1 (by decide)).2.2.1,
    (h.2.1 (by decide)).2.2.2.2.1, h.2.2.1⟩

/-- C16: for vectors `a` and `b`, `a == b` is true exactly when `a.size() == b.size()` and
`a[i]` equals `b[i]` at every index `i < a.size()`; vectors of different sizes are never
`==`, even when one is a prefix of the other (`[1, 2]` and `[1, 2, 3]`); and `a != b` is the
negation of `a == b`. -/
theorem operator_eq_spec [BEq T] (a b : vector T) (ha : a.valid) (hb : b.valid) :
    (operator_eq a b = true ↔
      a.size = b.size ∧ ∀ i, i < a.size → ∃ p q, a.operator_index i = some p ∧
        b.operator_index i = some q ∧ (p == q) = true) ∧
    (a.size ≠ b.size → operator_eq a b = false) ∧
    operator_ne a b = !(operator_eq a b) ∧
    (operator_eq ((vector.vector_default allocator.unlimited).push_back_all [1, 2]).2
        ((vector.vector_default allocator.unlimited).push_back_all [1, 2, 3]).2 = false ∧
      operator_eq ((vector.vector_default allocator.unlimited).push_back_all [1, 2, 3]).2
        ((vector.vector_default allocator.unlimited).push_back_all [1, 2]).2 = false ∧
      operator_eq ((vector.vector_default allocator.unlimited).push_back_all [1, 2, 3]).2
        ((vector.vector_default allocator.unlimited).push_back_all [1, 2, 3]).2 = true) := by
  refine ⟨operator_eq_iff a b ha hb, fun h => ?_, rfl, by decide⟩
  simp only [operator_eq, if_pos h]

/-- Comparing `sample` with itself and with the shorter `sample_full`. -/
theorem operator_eq_spec_witness :
    sample.valid ∧ sample_full.valid ∧ sample.size ≠ sample_full.size ∧
      operator_eq sample sample_full = false ∧ operator_eq sample sample = true ∧
      operator_ne sample sample_full = true :=
  have h := operator_eq_spec sample sample_full (by decide) (by decide)
  ⟨by decide, by decide, by decide, h.2.1 (by decide),
    (operator_eq_spec sample sample (by decide) (by decide)).1.2
      ⟨rfl, fun i hi => ⟨sample.to_list.getD i 0, sample.to_list.getD i 0, by
        have hi3 : i < 3 := hi
        interval_cases i <;> decide, by
        have hi3 : i < 3 := hi
        interval_cases i <;> decide, by simp⟩⟩,
    by decide⟩

end copy_claims
section ordering_lemmas
variable {T : Type}

theorem lexicographical_compare_iff [LT T] [DecidableRel (fun (a b : T) => a < b)]
    (l1 : List T) :
    ∀ l2 : List T, lexicographical_compare l1 l2 = true ↔
      (∃ i, i < l1.length ∧ i < l2.length ∧
        (∀ j, j < i → ∃ p q, l1[j]? = some p ∧ l2[j]? = some q ∧ ¬ p < q ∧ ¬ q < p) ∧
        ∃ p q, l1[i]? = some p ∧ l2[i]? = some q ∧ p < q) ∨
      (l1.length < l2.length ∧
        ∀ j, j < l1.length → ∃ p q, l1[j]? = some p ∧ l2[j]? = some q ∧ ¬ p < q ∧ ¬ q < p) := by
  induction l1 with
  | nil =>
    intro l2
    cases l2 with
    | nil => simp [lexicographical_compare]
    | cons b l2 => simp [lexicographical_compare]
  | cons a l1 ih =>
    intro l2
    cases l2 with
    | nil => simp [lexicographical_compare]
    | cons b l2 =>
      simp only [lexicographical_compare]
      constructor
      · intro h
        by_cases hab : a < b
        · exact Or.inl ⟨0, by simp, by simp, fun j hj => absurd hj (Nat.not_lt_zero j),
            a, b, by simp, by simp, hab⟩
        · rw [if_neg hab] at h
          by_cases hba : b < a
          · rw [if_pos hba] at h
            cases h
          · rw [if_neg hba] at h
            rcases (ih l2).1 h with ⟨i, h1, h2, h3, p, q, hp, hq, hpq⟩ | ⟨h1, h2⟩
            · refine Or.inl ⟨i + 1, by simpa using h1, by simpa using h2, fun j hj => ?_,
                p, q, by simpa using hp, by simpa using hq, hpq⟩
              cases j with
              | zero => exact ⟨a, b, by simp, by simp, hab, hba⟩
              | succ j =>
                obtain ⟨p', q', hp', hq', hn⟩ := h3 j (by omega)
                exact ⟨p', q', by simpa using hp', by simpa using hq', hn⟩
            · refine Or.inr ⟨by simpa using h1, fun j hj => ?_⟩
              cases j with
              | zero => exact ⟨a, b, by simp, by simp, hab, hba⟩
              | succ j =>
                obtain ⟨p', q', hp', hq', hn⟩ := h2 j (by simpa using hj)
                exact ⟨p', q', by simpa using hp', by simpa using hq', hn⟩
      · intro h
        by_cases hab : a < b
        · rw [if_pos hab]
        · rw [if_neg hab]
          have key : ¬ b < a ∧ lexicographical_compare l1 l2 = true := by
            rcases h with ⟨i, h1, h2, h3, p, q, hp, hq, hpq⟩ | ⟨h1, h2⟩
            · cases i with
              | zero =>
                simp only [List.getElem?_cons_zero, Option.some.injEq] at hp hq
                subst hp hq
                exact absurd hpq hab
              | succ i =>
                obtain ⟨p0, q0, hp0, hq0, _, hn0⟩ := h3 0 (by omega)
                simp only [List.getElem?_cons_zero, Option.some.injEq] at hp0 hq0
                subst hp0 hq0
                refine ⟨hn0, (ih l2).2 (Or.inl ⟨i, by simpa using h1, by simpa using h2,
                  fun j hj => ?_, p, q, by simpa using hp, by simpa using hq, hpq⟩)⟩
                obtain ⟨p', q', hp', hq', hn⟩ := h3 (j + 1) (by omega)
                exact ⟨p', q', by simpa using hp', by simpa using hq', hn⟩
            · obtain ⟨p0, q0, hp0, hq0, _, hn0⟩ := h2 0 (by simp)
              simp only [List.getElem?_cons_zero, Option.some.injEq] at hp0 hq0
              subst hp0 hq0
              refine ⟨hn0, (ih l2).2 (Or.inr ⟨by simpa using h1, fun j hj => ?_⟩)⟩
              obtain ⟨p', q', hp', hq', hn⟩ := h2 (j + 1) (by simpa using hj)
              exact ⟨p', q', by simpa using hp', by simpa using hq', hn⟩
          rw [if_neg key.1]
          exact key.2

theorem lexicographical_compare_self [Preorder T] [DecidableRel (fun (a b : T) => a < b)]
    (l : List T) : lexicographical_compare l l = false := by
  induction l with
  | nil => rfl
  | cons a l ih => simp [lexicographical_compare, ih]

end ordering_lemmas

section ordering_claims
variable {T : Type}

/-- C17: for vectors `a` and `b` over a strictly totally ordered element type, `a < b` is
true exactly when either some index `i < min(a.size(), b.size())` has `a[j]` equivalent to
`b[j]` for all `j < i` and `a[i] < b[i]`, or `a` is a strict prefix of `b`.  Hence `a < a`
is false, two vectors with the same elements are `==` and neither is `<` the other,
`[1,2,3] < [1,2,4]`, `[1,2] < [1,2,3]`, and `[1,2,3] < [1,2,3]` is false.  The derived
operators are `a <= b = !(b < a)`, `a > b = (b < a)`, `a >= b = !(a < b)`. -/
theorem operator_lt_spec [LinearOrder T] (a b : vector T) (ha : a.valid) (hb : b.valid) :
    (operator_lt a b = true ↔
      (∃ i, i < min a.size b.size ∧
        (∀ j, j < i → ∃ p q, a.operator_index j = some p ∧ b.operator_index j = some q ∧
          ¬ p < q ∧ ¬ q < p) ∧
        ∃ p q, a.operator_index i = some p ∧ b.operator_index i = some q ∧ p < q) ∨
      (a.size < b.size ∧
        ∀ j, j < a.size → ∃ p q, a.operator_index j = some p ∧ b.operator_index j = some q ∧
          ¬ p < q ∧ ¬ q < p)) ∧
    operator_lt a a = false ∧
    (a.to_list = b.to_list →
      operator_eq a b = true ∧ operator_lt a b = false ∧ operator_lt b a = false) ∧
    (operator_lt ((vector.vector_default allocator.unlimited).push_back_all [1, 2, 3]).2
        ((vector.vector_default allocator.unlimited).push_back_all [1, 2, 4]).2 = true ∧
      operator_lt ((vector.vector_default allocator.unlimited).push_back_all [1, 2]).2
        ((vector.vector_default allocator.unlimited).push_back_all [1, 2, 3]).2 = true ∧
      operator_lt ((vector.vector_default allocator.unlimited).push_back_all [1, 2, 3]).2
        ((vector.vector_default allocator.unlimited).push_back_all [1, 2, 3]).2 = false) ∧
    (operator_le a b = !(operator_lt b a) ∧ operator_gt a b = operator_lt b a ∧
      operator_ge a b = !(operator_lt a b)) := by
  have la := a.length_to_list ha
  have lb := b.length_to_list hb
  refine ⟨?_, lexicographical_compare_self _, fun h => ?_, by decide, ⟨rfl, rfl, rfl⟩⟩
  · simp only [operator_lt, vector.range]
    rw [lexicographical_compare_iff]
    constructor
    · rintro (⟨i, h1, h2, h3, p, q, hp, hq, hpq⟩ | ⟨h1, h2⟩)
      · refine Or.inl ⟨i, by omega, fun j hj => ?_, p, q,
          by rw [a.operator_index_eq ha i (by omega), hp],
          by rw [b.operator_index_eq hb i (by omega), hq], hpq⟩
        obtain ⟨p', q', hp', hq', hn⟩ := h3 j hj
        exact ⟨p', q', by rw [a.operator_index_eq ha j (by omega), hp'],
          by rw [b.operator_index_eq hb j (by omega), hq'], hn⟩
      · refine Or.inr ⟨by omega, fun j hj => ?_⟩
        obtain ⟨p', q', hp', hq', hn⟩ := h2 j (by omega)
        exact ⟨p', q', by rw [a.operator_index_eq ha j (by omega), hp'],
          by rw [b.operator_index_eq hb j (by omega), hq'], hn⟩
    · rintro (⟨i, h1, h3, p, q, hp, hq, hpq⟩ | ⟨h1, h2⟩)
      · have hi : i < a.size ∧ i < b.size := by omega
        refine Or.inl ⟨i, by omega, by omega, fun j hj => ?_, p, q,
          by rw [← a.operator_index_eq ha i hi.1, hp],
          by rw [← b.operator_index_eq hb i hi.2, hq], hpq⟩
        obtain ⟨p', q', hp', hq', hn⟩ := h3 j hj
        exact ⟨p', q', by rw [← a.operator_index_eq ha j (by omega), hp'],
          by rw [← b.operator_index_eq hb j (by omega), hq'], hn⟩
      · refine Or.inr ⟨by omega, fun j hj => ?_⟩
        obtain ⟨p', q', hp', hq', hn⟩ := h2 j (by omega)
        exact ⟨p', q', by rw [← a.operator_index_eq ha j (by omega), hp'],
          by rw [← b.operator_index_eq hb j (by omega), hq'], hn⟩
  · refine ⟨operator_eq_of_to_list_eq a b ha hb h, ?_, ?_⟩
    · simp only [operator_lt, vector.range, h, lexicographical_compare_self]
    · simp only [operator_lt, vector.range, h, lexicographical_compare_self]

/-- Ordering of `sample_full = [1, 2]` and `sample = [10, 20, 30]`. -/
theorem operator_lt_spec_witness :
    sample.valid ∧ sample_full.valid ∧ operator_lt sample sample = false ∧
      operator_lt sample_full sample = true ∧ operator_le sample sample = true ∧
      operator_ge sample_full sample = false :=
  have h := operator_lt_spec sample_full sample (by decide) (by decide)
  ⟨by decide, by decide, (operator_lt_spec sample sample (by decide) (by decide)).2.1,
    h.1.2 (Or.inl ⟨0, by decide, fun j hj => absurd hj (Nat.not_lt_zero j),
      1, 10, by decide, by decide, by decide⟩),
    by decide, by decide⟩

end ordering_claims
section invariant_claims
variable {T : Type}

theorem vector.invariant_iff (v : vector T) : v.invariant ↔ v._end ≤ v._end_cap := by
  simp [vector.invariant, vector.size, vector.capacity]

/-- C19: the class invariant `0 ≤ size() ≤ capacity()` holds for every vector built by a
constructor (default, sized-fill, range, copy), and every public mutating operation
(`operator=`, `reserve`, `resize`, both `assign`, `push_back`, `pop_back`, the three `insert`,
both `erase`, `clear`, `swap`), called within its preconditions on vectors satisfying the
invariant, leaves the vector (for `swap`, both vectors) satisfying it, whether the call
returns or throws.  The argument `ref` of `assign`, `push_back` and `insert` is any object
outside the storage of the vector or any reference to one of its slots. -/
theorem invariant_spec (v x : vector T) (al : allocator) (sizeof_value_type n d k : Nat)
    (val : T) (ref : value_ref T) (range : List T) (hv : v.invariant) (hx : x.invariant) :
    (vector.vector_default al : vector T).invariant ∧
    (∀ c, vector.vector_fill n val al = .ok c → c.invariant) ∧
    (∀ c, vector.vector_range range al = .ok c → c.invariant) ∧
    (∀ c, vector.vector_copy x = .ok c → c.invariant) ∧
    (v.operator_assign (.other x)).2.invariant ∧
    (v.operator_assign .self).2.invariant ∧
    (v.reserve sizeof_value_type n).2.invariant ∧
    (v.resize n val).2.invariant ∧
    (v.assign_fill n ref).2.invariant ∧
    (v.assign_range range).2.invariant ∧
    (v.push_back ref).2.invariant ∧
    v.pop_back.invariant ∧
    (d ≤ v.size → (v.insert (v.begin + d) ref).2.invariant) ∧
    (d ≤ v.size → (v.insert_fill (v.begin + d) n ref).2.invariant) ∧
    (d ≤ v.size → (v.insert_range (v.begin + d) range).2.invariant) ∧
    (d ≤ v.size → (v.erase (v.begin + d)).2.invariant) ∧
    (d + k ≤ v.size → (v.erase_range (v.begin + d) (v.begin + d + k)).2.invariant) ∧
    v.clear.invariant ∧
    ((v.swap x).1.invariant ∧ (v.swap x).2.invariant) := by
  have hv2 : v._end ≤ v._end_cap := (v.invariant_iff).1 hv
  have hx2 : x._end ≤ x._end_cap := (x.invariant_iff).1 hx
  have hsz : v.size = v._end := rfl
  have hcp : v.capacity = v._end_cap := rfl
  refine ⟨?_, ?_, ?_, ?_, ?_, hv, ?_, ?_, ?_, ?_, ?_, ?_, ?_, ?_, ?_, ?_, ?_, ?_, ?_⟩
  · rw [vector.invariant_iff]
    exact Nat.le_refl 0
  · intro c hc
    by_cases ha : al.allocate n = true
    · simp only [vector.vector_fill, if_pos ha] at hc
      have hcc := Except.ok.inj hc
      obtain ⟨s1, s2⟩ := vector.construct_loop_sizes al n n (fun _ => some val)
      rw [vector.invariant_iff, ← hcc, s1, s2]
    · simp [vector.vector_fill, ha] at hc
  · intro c hc
    by_cases ha : al.allocate range.length = true
    · simp only [vector.vector_range, if_pos ha] at hc
      have hcc := Except.ok.inj hc
      obtain ⟨s1, s2⟩ := vector.construct_loop_sizes al range.length range.length
        (fun i => range[i]?)
      rw [vector.invariant_iff, ← hcc, s1, s2]
    · simp [vector.vector_range, ha] at hc
  · intro c hc
    by_cases ha : x._alloc.allocate x.capacity = true
    · simp only [vector.vector_copy, if_pos ha] at hc
      have hcc := Except.ok.inj hc
      obtain ⟨s1, s2⟩ := vector.construct_loop_sizes x._alloc x.capacity x.size
        (fun i => deref x._begin (x.begin + i))
      rw [vector.invariant_iff, ← hcc, s1, s2]
      exact hx2
    · simp [vector.vector_copy, ha] at hc
  · by_cases ha : x._alloc.allocate x.size = true
    · obtain ⟨s1, s2⟩ := vector.construct_loop_sizes x._alloc x.size x.size
        (fun i => deref x._begin (x.begin + i))
      simp only [vector.operator_assign, if_pos ha]
      rw [vector.invariant_iff]
      rw [s1, s2]
    · simp only [vector.operator_assign, if_neg ha]
      rw [vector.invariant_iff]
      exact Nat.zero_le _
  · obtain ⟨o1, o2, o3⟩ := v.reserve_outcome sizeof_value_type n
    by_cases hm : n > v.max_size sizeof_value_type
    · rw [o1 hm]; exact hv
    · by_cases hc : v.capacity < n ∧ v._alloc.allocate n = false
      · rw [o2 hm hc]; exact hv
      · obtain ⟨_, e1, e2⟩ := o3 hm hc
        rw [vector.invariant_iff, e1, e2]
        omega
  · obtain ⟨o1, o2⟩ := v.resize_outcome n val
    by_cases hc : n > v.size ∧ n > v.capacity ∧ v._alloc.allocate
        (if v.capacity * 2 > n then v.capacity * 2 else n) = false
    · rw [o1 hc]; exact hv
    · obtain ⟨_, e1, e2⟩ := o2 hc
      rw [vector.invariant_iff, e1, e2]
      split_ifs <;> omega
  · obtain ⟨o1, o2⟩ := v.assign_fill_outcome n ref
    by_cases hc : n > v.capacity ∧ v._alloc.allocate n = false
    · rw [o1 hc]; exact hv
    · obtain ⟨_, e1, e2⟩ := o2 hc
      rw [vector.invariant_iff, e1, e2]
      split_ifs <;> omega
  · obtain ⟨o1, o2⟩ := v.assign_range_outcome range
    by_cases hc : range.length > v.capacity ∧ v._alloc.allocate range.length = false
    · rw [o1 hc]; exact hv
    · obtain ⟨_, e1, e2⟩ := o2 hc
      rw [vector.invariant_iff, e1, e2]
      split_ifs <;> omega
  · obtain ⟨o1, o2⟩ := v.push_back_outcome ref
    by_cases hc : v.size = v.capacity ∧
        v._alloc.allocate (if v.size = 0 then 1 else v.size * 2) = false
    · rw [o1 hc]; exact hv
    · obtain ⟨_, e1, e2⟩ := o2 hc
      rw [vector.invariant_iff, e1, e2]
      split_ifs <;> omega
  · rw [vector.invariant_iff]
    simp only [vector.pop_back]
    split_ifs
    · show v._end - 1 ≤ v._end_cap
      omega
    · exact hv2
  · intro _
    obtain ⟨o1, o2⟩ := v.insert_outcome (v.begin + d) ref
    by_cases hc : v.size = v.capacity ∧
        v._alloc.allocate (if v.capacity = 0 then 1 else v.capacity * 2) = false
    · rw [o1 hc]; exact hv
    · obtain ⟨_, e1, e2⟩ := o2 hc
      rw [vector.invariant_iff, e1, e2]
      split_ifs <;> omega
  · intro _
    obtain ⟨o1, o2⟩ := v.insert_fill_outcome (v.begin + d) n ref
    by_cases hc : n ≠ 0 ∧ (v.size + n) % size_type_modulus > v.capacity ∧ v._alloc.allocate
        (if v.capacity * 2 ≥ (v.size + n) % size_type_modulus then v.capacity * 2
          else (v.size + n) % size_type_modulus) = false
    · rw [o1 hc]; exact hv
    · obtain ⟨e2, hu, hk⟩ := o2 hc
      rw [vector.invariant_iff]
      by_cases hfit : n ≠ 0 ∧
          v.size + n > (v.insert_fill (v.begin + d) n ref).2._end_cap
      · rw [(hu hfit).2, e2]
        split_ifs <;> omega
      · rw [(hk hfit).2]
        by_cases h0 : n = 0
        · rw [e2]
          split_ifs <;> omega
        · have hle : ¬ (v.size + n > (v.insert_fill (v.begin + d) n ref).2._end_cap) :=
            fun h => hfit ⟨h0, h⟩
          omega
  · intro _
    obtain ⟨o1, o2⟩ := v.insert_range_outcome (v.begin + d) range
    by_cases hc : range.length ≠ 0 ∧
        (v.size + range.length) % size_type_modulus > v.capacity ∧ v._alloc.allocate
        (if v.capacity * 2 ≥ (v.size + range.length) % size_type_modulus then v.capacity * 2
          else (v.size + range.length) % size_type_modulus) = false
    · rw [o1 hc]; exact hv
    · obtain ⟨e2, hu, hk⟩ := o2 hc
      rw [vector.invariant_iff]
      by_cases hfit : range.length ≠ 0 ∧
          v.size + range.length > (v.insert_range (v.begin + d) range).2._end_cap
      · rw [(hu hfit).2, e2]
        split_ifs <;> omega
      · rw [(hk hfit).2]
        by_cases h0 : range.length = 0
        · rw [e2]
          split_ifs <;> omega
        · have hle : ¬ (v.size + range.length
              > (v.insert_range (v.begin + d) range).2._end_cap) := fun h => hfit ⟨h0, h⟩
          omega
  · intro _
    rw [vector.invariant_iff]
    simp only [vector.erase]
    split_ifs
    · exact hv2
    · show v._end - 1 ≤ v._end_cap
      omega
  · intro _
    rw [vector.invariant_iff]
    simp only [vector.erase_range]
    split_ifs
    · exact hv2
    · show v._end - (v.begin + d + k - (v.begin + d)) ≤ v._end_cap
      omega
  · rw [vector.invariant_iff]
    exact Nat.zero_le _
  · exact ⟨(vector.invariant_iff _).2 hx2, (vector.invariant_iff _).2 hv2⟩

/-- The invariant on `sample` and `sample_full` and after calls on them. -/
theorem invariant_spec_witness :
    sample.invariant ∧ sample_full.invariant ∧ 1 ≤ sample.size ∧
      (sample.push_back (.element 0)).2.invariant ∧
      (sample.insert (sample.begin + 1) (.element 0)).2.invariant ∧
      (sample.resize 9 7).2.invariant ∧ (sample.operator_assign (.other sample_full)).2.invariant ∧
      (sample.swap sample_full).1.invariant :=
  have h := invariant_spec sample sample_full allocator.unlimited 4 9 1 1 7 (.element 0) [1, 2]
    (by decide) (by decide)
  ⟨by decide, by decide, by decide, h.2.2.2.2.2.2.2.2.2.2.1,
    h.2.2.2.2.2.2.2.2.2.2.2.2.1 (by decide), h.2.2.2.2.2.2.2.1, h.2.2.2.2.1,
    h.2.2.2.2.2.2.2.2.2.2.2.2.2.2.2.2.2.2.1⟩

end invariant_claims

section capacity_sequence
variable {T : Type}

theorem vector.doubling_push_back (v : vector T) (val : value_ref T) (hd : v.doubling)
    (hok : (v.push_back val).1 = .ok ()) :
    (v.push_back val).2.doubling ∧ (v.push_back val).2._end = v._end + 1 := by
  obtain ⟨o1, o2⟩ := v.push_back_outcome val
  by_cases hc : v.size = v.capacity ∧
      v._alloc.allocate (if v.size = 0 then 1 else v.size * 2) = false
  · rw [o1 hc] at hok; cases hok
  · obtain ⟨_, e1, e2⟩ := o2 hc
    refine ⟨?_, e1⟩
    simp only [vector.size, vector.capacity] at e2
    rcases hd with ⟨h1, h2⟩ | ⟨k, h1, h2, h3⟩
    · right
      refine ⟨0, ?_, ?_, ?_⟩
      · rw [e2, if_pos (by omega), if_pos h1]
        rfl
      · rw [e1, e2, if_pos (by omega), if_pos h1]
        omega
      · rw [e1, e2, if_pos (by omega), if_pos h1]
        omega
    · right
      by_cases hfull : v._end = v._end_cap
      · refine ⟨k + 1, ?_, ?_, ?_⟩
        · rw [e2, if_pos hfull, if_neg (by omega), hfull, h1, Nat.pow_succ]
        · rw [e1, e2, if_pos hfull, if_neg (by omega)]
          omega
        · rw [e1, e2, if_pos hfull, if_neg (by omega)]
          omega
      · refine ⟨k, ?_, ?_, ?_⟩
        · rw [e2, if_neg hfull, h1]
        · rw [e1, e2, if_neg hfull]
          omega
        · rw [e1, e2, if_neg hfull]
          omega

theorem vector.doubling_push_back_all (xs : List T) :
    ∀ (v : vector T), v.doubling → (v.push_back_all xs).1 = .ok () →
      (v.push_back_all xs).2.doubling ∧ (v.push_back_all xs).2._end = v._end + xs.length := by
  induction xs with
  | nil => intro v hd _; exact ⟨hd, rfl⟩
  | cons x xs ih =>
    intro v hd hok
    rcases hr : v.push_back (.outside x) with ⟨r, v1⟩
    cases r with
    | error e =>
      simp only [vector.push_back_all, hr] at hok
      cases hok
    | ok u =>
      have h1 : (v.push_back (.outside x)).1 = .ok () := by rw [hr]
      obtain ⟨d1, d2⟩ := v.doubling_push_back (.outside x) hd h1
      rw [hr] at d1 d2
      simp only [vector.push_back_all, hr] at hok ⊢
      obtain ⟨i1, i2⟩ := ih v1 d1 hok
      refine ⟨i1, ?_⟩
      rw [i2, d2, List.length_cons]
      omega

theorem pow_two_least (c n k : Nat) (hc : c = 2 ^ k) (h1 : c < 2 * n) :
    ∀ j, n ≤ 2 ^ j → c ≤ 2 ^ j := by
  intro j hj
  by_cases hjk : k ≤ j
  · rw [hc]
    exact Nat.pow_le_pow_right (by decide) hjk
  · exfalso
    have h2 : 2 ^ (j + 1) ≤ 2 ^ k := Nat.pow_le_pow_right (by decide) (by omega)
    rw [Nat.pow_succ] at h2
    omega

/-- C20: starting from a default-constructed vector, after `n` calls of `push_back` and
nothing else (all of which return, as they do when the allocator never refuses),
`capacity()` is `0` if `n == 0` and otherwise the smallest power of two that is `≥ n`
(`1, 2, 4, 4, 8, 8, 8, 8, 16` for `n = 1, ..., 9`); in particular `capacity() < 2 * n` for
every `n ≥ 1`. -/
theorem push_back_capacity_sequence (al : allocator) (xs : List T) :
    ((∀ n, al.allocate n = true) →
      ((vector.vector_default al).push_back_all xs).1 = .ok ()) ∧
    (((vector.vector_default al).push_back_all xs).1 = .ok () →
      ((vector.vector_default al).push_back_all xs).2.size = xs.length ∧
      (xs.length = 0 → ((vector.vector_default al).push_back_all xs).2.capacity = 0) ∧
      (1 ≤ xs.length →
        (∃ k, ((vector.vector_default al).push_back_all xs).2.capacity = 2 ^ k) ∧
        xs.length ≤ ((vector.vector_default al).push_back_all xs).2.capacity ∧
        (∀ j, xs.length ≤ 2 ^ j →
          ((vector.vector_default al).push_back_all xs).2.capacity ≤ 2 ^ j) ∧
        ((vector.vector_default al).push_back_all xs).2.capacity < 2 * xs.length)) ∧
    List.map (fun n => ((vector.vector_default allocator.unlimited).push_back_all
        (List.replicate n 0)).2.capacity) [0, 1, 2, 3, 4, 5, 6, 7, 8, 9]
      = [0, 1, 2, 4, 4, 8, 8, 8, 8, 16] := by
  have hdef : (vector.vector_default al : vector T).doubling := Or.inl ⟨rfl, rfl⟩
  have hval : (vector.vector_default al : vector T).valid := ⟨rfl, Nat.le_refl 0, rfl⟩
  refine ⟨fun hal => vector.push_back_all_ok xs _ hval hal, fun hok => ?_, by decide⟩
  obtain ⟨hd, he⟩ := vector.doubling_push_back_all xs _ hdef hok
  have he2 : ((vector.vector_default al).push_back_all xs).2._end = xs.length := by
    rw [he]
    show 0 + xs.length = xs.length
    omega
  refine ⟨he2, fun h0 => ?_, fun h1 => ?_⟩
  · rcases hd with ⟨_, h⟩ | ⟨k, _, h2, h3⟩
    · exact h
    · omega
  · rcases hd with ⟨h, _⟩ | ⟨k, hk, h2, h3⟩
    · omega
    · rw [he2] at h2 h3
      exact ⟨⟨k, hk⟩, h2, pow_two_least _ _ k hk h3, h3⟩

/-- Five calls of `push_back` on an empty vector: five elements in eight slots. -/
theorem push_back_capacity_sequence_witness :
    ((vector.vector_default allocator.unlimited).push_back_all [1, 2, 3, 4, 5]).1 = .ok () ∧
      ((vector.vector_default allocator.unlimited).push_back_all [1, 2, 3, 4, 5]).2.capacity = 8 ∧
      ((vector.vector_default allocator.unlimited).push_back_all [1, 2, 3, 4, 5]).2.capacity
        < 2 * [1, 2, 3, 4, 5].length ∧
      [1, 2, 3, 4, 5].length
        ≤ ((vector.vector_default allocator.unlimited).push_back_all [1, 2, 3, 4, 5]).2.capacity :=
  have h := (push_back_capacity_sequence allocator.unlimited [1, 2, 3, 4, 5]).2.1 (by decide)
  ⟨by decide, by decide, (h.2.2 (by decide)).2.2.2, (h.2.2 (by decide)).2.1⟩

end capacity_sequence

end ft
